import Mathlib

/-!
A verification development for an io-ts style runtime type system
(descriptor combinators with `is` / `validate` / `encode`, a tree-shaped
error model `VError \x7bvalue, key, type, children\x7d`, unboxed
`Validation<A> = Left<VError, A> | A`, and a path reporter).

The JavaScript value universe is modelled by the inductive `Value`.
Object identity (JS `===` on objects) is modelled by structural equality:
the combinators only use `===` to detect whether a child validation
returned its exact input, and on tree-shaped values produced by these
validators the two notions agree on every run appearing below.
-/

namespace IoTs

mutual
/-- JS values: parsed-JSON-like data plus `undefined`, functions and `Date`
    (the latter models transformed outputs such as `DateFromNumber`). -/
inductive Value where
  | vNull
  | vUndefinedV
  | vStr (s : String)
  | vNum (n : Int)
  | vBool (b : Bool)
  | vArr (xs : ValueList)
  | vObj (fs : VFields)
  | vDate (t : Int)
  | vFunc (nm : String) (arity : Nat)
  deriving DecidableEq

/-- A JS array's element list. -/
inductive ValueList where
  | nil
  | cons (v : Value) (tl : ValueList)
  deriving DecidableEq

/-- A JS object's own enumerable properties, in insertion order. -/
inductive VFields where
  | nil
  | cons (k : String) (v : Value) (tl : VFields)
  deriving DecidableEq
end

namespace ValueList

def length : ValueList → Nat
  | .nil => 0
  | .cons _ tl => tl.length + 1

/-- `xs[i]`, with JS's `undefined` for out-of-bounds reads. -/
def get : ValueList → Nat → Value
  | .nil, _ => .vUndefinedV
  | .cons v _, 0 => v
  | .cons _ tl, n + 1 => tl.get n

/-- `xs[i] = w` on an existing index (out-of-bounds writes are not used on
    any run appearing in this development). -/
def set : ValueList → Nat → Value → ValueList
  | .nil, _, _ => .nil
  | .cons _ tl, 0, w => .cons w tl
  | .cons v tl, n + 1, w => .cons v (tl.set n w)

def append : ValueList → ValueList → ValueList
  | .nil, ys => ys
  | .cons v tl, ys => .cons v (tl.append ys)

def push (xs : ValueList) (v : Value) : ValueList :=
  xs.append (.cons v .nil)

/-- `xs.every p`. -/
def all (p : Value → Bool) : ValueList → Bool
  | .nil => true
  | .cons v tl => p v && all p tl

end ValueList

namespace VFields

def keys : VFields → List String
  | .nil => []
  | .cons k _ tl => k :: tl.keys

def lookup : VFields → String → Option Value
  | .nil, _ => none
  | .cons k v tl, k' => if k = k' then some v else tl.lookup k'

def hasKey (fs : VFields) (k : String) : Bool :=
  (fs.lookup k).isSome

/-- `o[k] = w`: overwrite in place when the key exists, append otherwise
    (JS property assignment keeps the insertion position of existing keys). -/
def setKey : VFields → String → Value → VFields
  | .nil, k, w => .cons k w .nil
  | .cons k v tl, k', w => if k = k' then .cons k w tl else .cons k v (tl.setKey k' w)

end VFields

/-- JS `typeof`. -/
def typeofStr : Value → String
  | .vNull => "object"
  | .vUndefinedV => "undefined"
  | .vStr _ => "string"
  | .vNum _ => "number"
  | .vBool _ => "boolean"
  | .vArr _ => "object"
  | .vObj _ => "object"
  | .vDate _ => "object"
  | .vFunc _ _ => "function"

/-- `AnyDictionaryType.is`: `m !== null && typeof m === 'object'`. -/
def dictIs : Value → Bool
  | .vNull => false
  | .vArr _ => true
  | .vObj _ => true
  | .vDate _ => true
  | _ => false

/-- `Array.isArray`. -/
def isArrB : Value → Bool
  | .vArr _ => true
  | _ => false

/-- The canonical decimal array-index strings ("0", "1", ...). -/
def parseIdx (s : String) : Option Nat :=
  let cs := s.data
  if cs = [] then none
  else if cs.all Char.isDigit then
    if cs.headD '0' = '0' ∧ cs ≠ ['0'] then none
    else some (cs.foldl (fun a c => a * 10 + (c.toNat - 48)) 0)
  else none

/-- Index key strings `Nat.repr start, ..., Nat.repr (start+n-1)`. -/
def idxKeys : Nat → Nat → List String
  | _, 0 => []
  | s, n + 1 => Nat.repr s :: idxKeys (s + 1) n

/-- JS property read `o[k]` (missing properties read as `undefined`;
    arrays expose their indices and `length`). -/
def getProp : Value → String → Value
  | .vObj fs, k => (fs.lookup k).getD .vUndefinedV
  | .vArr xs, k =>
    if k = "length" then .vNum xs.length
    else
      match parseIdx k with
      | some i => xs.get i
      | none => .vUndefinedV
  | _, _ => .vUndefinedV

/-- Own enumerable string keys, as iterated by `for..in` / `Object.keys`. -/
def jsKeys : Value → List String
  | .vObj fs => fs.keys
  | .vArr xs => idxKeys 0 xs.length
  | _ => []

/-- `Object.getOwnPropertyNames` (arrays additionally own `length`). -/
def ownPropNames : Value → List String
  | .vObj fs => fs.keys
  | .vArr xs => idxKeys 0 xs.length ++ ["length"]
  | _ => []

/-- An array's elements as index-keyed object fields. -/
def idxFields : ValueList → Nat → VFields
  | .nil, _ => .nil
  | .cons v tl, i => .cons (Nat.repr i) v (idxFields tl (i + 1))

/-- Fields of the object spread `\x7b...o\x7d` (spreading an array yields a
    plain object keyed by index strings). -/
def spreadFields : Value → VFields
  | .vObj fs => fs
  | .vArr xs => idxFields xs 0
  | _ => .nil

/-- `\x7b...o\x7d` as a value. -/
def objSpread (v : Value) : Value := .vObj (spreadFields v)

/-- `a[k] = w` on an object value. -/
def setProp : Value → String → Value → Value
  | .vObj fs, k, w => .vObj (fs.setKey k w)
  | v, _, _ => v

/-- JS string coercion `String(v)` (the `Date` and function renderings are
    schematic; they are never reached on the runs appearing below). -/
def jsCoerceString : Value → String
  | .vNull => "null"
  | .vUndefinedV => "undefined"
  | .vStr s => s
  | .vNum n => toString n
  | .vBool true => "true"
  | .vBool false => "false"
  | .vArr _ => ""
  | .vObj _ => "[object Object]"
  | .vDate t => "Date(" ++ toString t ++ ")"
  | .vFunc nm _ => nm

/-- JSON string escaping (quote and backslash; control characters do not
    occur in the values handled below). -/
def escapeChars : List Char → List Char
  | [] => []
  | c :: cs =>
    if c = '"' then '\\' :: '"' :: escapeChars cs
    else if c = '\\' then '\\' :: '\\' :: escapeChars cs
    else c :: escapeChars cs

def quoteStr (s : String) : String :=
  "\"" ++ String.mk (escapeChars s.data) ++ "\""

/-- `JSON.stringify` of a list of strings (used for `keyof` names). -/
def jsonStrArray (ks : List String) : String :=
  "[" ++ String.intercalate "," (ks.map quoteStr) ++ "]"

mutual
/-- `JSON.stringify`, as interpolated into a template string (so the
    top-level `undefined` renders as "undefined"); inside containers
    `undefined` and functions render as JSON `null` / are skipped. -/
def jsonRender : Value → String
  | .vNull => "null"
  | .vUndefinedV => "undefined"
  | .vStr s => quoteStr s
  | .vNum n => toString n
  | .vBool true => "true"
  | .vBool false => "false"
  | .vArr xs => "[" ++ String.intercalate "," (jsonRenderElems xs) ++ "]"
  | .vObj fs => "\x7b" ++ String.intercalate "," (jsonRenderFields fs) ++ "\x7d"
  | .vDate t => quoteStr ("Date(" ++ toString t ++ ")")
  | .vFunc _ _ => "undefined"

def jsonRenderElems : ValueList → List String
  | .nil => []
  | .cons v tl =>
    (match v with
     | .vUndefinedV => "null"
     | .vFunc _ _ => "null"
     | _ => jsonRender v) :: jsonRenderElems tl

def jsonRenderFields : VFields → List String
  | .nil => []
  | .cons _ .vUndefinedV tl => jsonRenderFields tl
  | .cons _ (.vFunc _ _) tl => jsonRenderFields tl
  | .cons k v tl => (quoteStr k ++ ":" ++ jsonRender v) :: jsonRenderFields tl
end

/-- `getFunctionName`: `displayName || name || `<function$\x7bf.length\x7d>``. -/
def getFunctionName : Value → String
  | .vFunc nm ar => if nm = "" then "<function" ++ Nat.repr ar ++ ">" else nm
  | _ => ""

/-- The path reporter's `stringify` (functions rendered by name, everything
    else via `JSON.stringify`). -/
def stringify (v : Value) : String :=
  match v with
  | .vFunc _ _ => getFunctionName v
  | _ => jsonRender v

mutual
/-- The error tree: `VError = \x7bvalue, key, type, children\x7d`; a leaf has
    no children.  Only the descriptor's *name* is retained for the `type`
    field, which is all the reporting layer reads from it. -/
inductive VError where
  | node (value : Value) (key : String) (tyName : String) (children : VErrors)
  deriving DecidableEq

inductive VErrors where
  | nil
  | cons (e : VError) (tl : VErrors)
  deriving DecidableEq
end

namespace VErrors

def append : VErrors → VErrors → VErrors
  | .nil, es => es
  | .cons e tl, es => .cons e (tl.append es)

def length : VErrors → Nat
  | .nil => 0
  | .cons _ tl => tl.length + 1

inductive Mem (e : VError) : VErrors → Prop
  | head (tl : VErrors) : Mem e (.cons e tl)
  | tail (e' : VError) (tl : VErrors) : Mem e tl → Mem e (.cons e' tl)

end VErrors

def VError.key : VError → String
  | .node _ k _ _ => k

def VError.tyName : VError → String
  | .node _ _ t _ => t

def VError.children : VError → VErrors
  | .node _ _ _ ch => ch

/-- `Validation<A> = Left<VError, A> | A`, specialised to runtime values. -/
inductive Res where
  | ok (v : Value)
  | err (e : VError)
  deriving DecidableEq

def consOpt : Option VError → VErrors → VErrors
  | none, es => es
  | some e, es => .cons e es

mutual
/-- The descriptor grammar: one constructor per runtime type of the
    combinator API (`null`, `undefined`, `any`, `never`, `string`, `number`,
    `boolean`, `Array`, `Dictionary`, `object`, `Function`, `literal`,
    `keyof`, `refinement`, `array`, `type`/`interface`, the optional-props
    combinator, `dictionary`, `union`, `intersection`, `tuple`, `readonly`,
    `readonlyArray`, `strict`, `taggedUnion`), plus `custom` for
    user-written `new Type(...)` instances such as `DateFromNumber`.
    The lazy `recursion(name, definition)` fixpoint is the constructor
    `recT`: its `is`/`validate`/`encode` delegate to the memoized
    `runDefinition()` result, carried here as the opaque delegate
    functions `ris`/`rval`/`renc` (validate forwards `(m, c, decoder)`
    unchanged).  Crucially, `Self.encode` in the source is the fresh
    closure `a => runDefinition().encode(a)`, which is never
    reference-equal to `identity`, so every `=== identity` fast path
    sees a recursive descriptor as a non-identity encoder. -/
inductive Desc where
  | nullT
  | undefT
  | anyT
  | neverT
  | stringT
  | numberT
  | booleanT
  | arrAnyT
  | dictAnyT
  | objectT
  | funcT
  | literalT (lv : Value)
  | keyofT (ks : List String)
  | refineT (base : Desc) (p : Value → Bool) (nm : String)
  | arrayT (e : Desc)
  | typeT (ps : Props)
  | optionalT (ps : Props)
  | dictT (dom : Desc) (cod : Desc)
  | unionT (ts : DescList)
  | interT (ts : DescList)
  | tupleT (ts : DescList)
  | readonlyT (t : Desc)
  | roArrayT (e : Desc)
  | strictT (ps : Props)
  | taggedU (tag : String) (ts : DescList)
  | custom (nm : String) (cis : Value → Bool) (cval : Value → String → String → Res)
      (cenc : Value → Option Value) (cencId : Bool)
  | recT (nm : String) (ris : Value → Bool) (rval : Value → String → String → Res)
      (renc : Value → Option Value)

/-- A list of member descriptors. -/
inductive DescList where
  | nil
  | cons (d : Desc) (tl : DescList)

/-- A props map: field name / descriptor pairs in declaration order. -/
inductive Props where
  | nil
  | cons (k : String) (d : Desc) (tl : Props)
end

namespace DescList

def length : DescList → Nat
  | .nil => 0
  | .cons _ tl => tl.length + 1

def append : DescList → DescList → DescList
  | .nil, ys => ys
  | .cons d tl, ys => .cons d (tl.append ys)

/-- `ts[i]`, defaulting to `never` out of bounds (never reached below). -/
def nthD : DescList → Nat → Desc
  | .nil, _ => .neverT
  | .cons d _, 0 => d
  | .cons _ tl, n + 1 => tl.nthD n

inductive Mem (d : Desc) : DescList → Prop
  | head (tl : DescList) : Mem d (.cons d tl)
  | tail (d' : Desc) (tl : DescList) : Mem d tl → Mem d (.cons d' tl)

end DescList

namespace Props

inductive Mem (k : String) (d : Desc) : Props → Prop
  | head (tl : Props) : Mem k d (.cons k d tl)
  | tail (k' : String) (d' : Desc) (tl : Props) : Mem k d tl → Mem k d (.cons k' d' tl)

end Props

/-- `props.hasOwnProperty(k)`. -/
def hasPropKey : Props → String → Bool
  | .nil, _ => false
  | .cons k _ tl, k' => k = k' || hasPropKey tl k'

mutual
/-- The descriptor's `name` (the default names computed by the library;
    explicit name overrides are not modelled). -/
def dname : Desc → String
  | .nullT => "null"
  | .undefT => "undefined"
  | .anyT => "any"
  | .neverT => "never"
  | .stringT => "string"
  | .numberT => "number"
  | .booleanT => "boolean"
  | .arrAnyT => "Array"
  | .dictAnyT => "Dictionary"
  | .objectT => "object"
  | .funcT => "Function"
  | .literalT lv => jsonRender lv
  | .keyofT ks => "(keyof " ++ jsonStrArray ks ++ ")"
  | .refineT _ _ nm => nm
  | .arrayT e => "Array<" ++ dname e ++ ">"
  | .typeT ps => "\x7b " ++ String.intercalate ", " (propsNamePairs ps) ++ " \x7d"
  | .optionalT ps =>
    "PartialType<" ++ ("\x7b " ++ String.intercalate ", " (propsNamePairs ps) ++ " \x7d") ++ ">"
  | .dictT dom cod => "\x7b [K in " ++ dname dom ++ "]: " ++ dname cod ++ " \x7d"
  | .unionT ts => "(" ++ String.intercalate " | " (dnames ts) ++ ")"
  | .interT ts => "(" ++ String.intercalate " & " (dnames ts) ++ ")"
  | .tupleT ts => "[" ++ String.intercalate ", " (dnames ts) ++ "]"
  | .readonlyT t => "Readonly<" ++ dname t ++ ">"
  | .roArrayT e => "ReadonlyArray<" ++ dname e ++ ">"
  | .strictT ps =>
    "StrictType<" ++ ("\x7b " ++ String.intercalate ", " (propsNamePairs ps) ++ " \x7d") ++ ">"
  | .taggedU _ ts => "(" ++ String.intercalate " | " (dnames ts) ++ ")"
  | .custom nm _ _ _ _ => nm
  | .recT nm _ _ _ => nm

def dnames : DescList → List String
  | .nil => []
  | .cons d tl => dname d :: dnames tl

def propsNamePairs : Props → List String
  | .nil => []
  | .cons k d tl => (k ++ ": " ++ dname d) :: propsNamePairs tl
end

/-- `getNameFromProps`. -/
def propsName (ps : Props) : String :=
  "\x7b " ++ String.intercalate ", " (propsNamePairs ps) ++ " \x7d"

/-- The tag value of a literal-typed prop, coerced to a property-key
    string (`type.props[tag].value`). -/
def litTag : Props → String → Option String
  | .nil, _ => none
  | .cons k d tl, tag =>
    if k = tag then
      match d with
      | .literalT lv => some (jsCoerceString lv)
      | _ => none
    else litTag tl tag

mutual
/-- `isTagged(tag)`. -/
def isTagged (tag : String) : Desc → Bool
  | .typeT ps => hasPropKey ps tag
  | .strictT ps => hasPropKey ps tag
  | .interT ts => isTaggedAny tag ts
  | .unionT ts => isTaggedAll tag ts
  | .refineT b _ _ => isTagged tag b
  | _ => false

def isTaggedAny (tag : String) : DescList → Bool
  | .nil => false
  | .cons d tl => isTagged tag d || isTaggedAny tag tl

def isTaggedAll (tag : String) : DescList → Bool
  | .nil => true
  | .cons d tl => isTagged tag d && isTaggedAll tag tl
end

mutual
/-- `getTagValue(tag)`: the constant discriminant value of a member, as a
    key string; `none` where the original would fault at construction. -/
def getTagValue (tag : String) : Desc → Option String
  | .typeT ps => litTag ps tag
  | .strictT ps => litTag ps tag
  | .interT ts => getTagFind tag ts
  | .unionT ts =>
    match ts with
    | .nil => none
    | .cons t _ => getTagValue tag t
  | .refineT b _ _ => getTagValue tag b
  | _ => none

/-- `getTagValue(findTagged(tag, types))`: first tagged member of the first
    `len-1`, falling back to the last member. -/
def getTagFind (tag : String) : DescList → Option String
  | .nil => none
  | .cons t .nil => getTagValue tag t
  | .cons t (.cons u tl) =>
    if isTagged tag t then getTagValue tag t else getTagFind tag (.cons u tl)
end

/-- First-occurrence deduplication (JS object key insertion order). -/
def dedupFirst : List String → List String
  | [] => []
  | s :: tl => s :: (dedupFirst tl).filter (fun x => x ≠ s)

def collectTagVals (tag : String) : DescList → List String
  | .nil => []
  | .cons d tl =>
    match getTagValue tag d with
    | some s => s :: collectTagVals tag tl
    | none => collectTagVals tag tl

/-- The keys of the `tagValues` object (the `keyof` domain). -/
def tagKeys (tag : String) (ts : DescList) : List String :=
  dedupFirst (collectTagVals tag ts)

/-- `tagValue2Index`: the *last* member index carrying tag value `s`
    (later members overwrite earlier ones in the construction loop). -/
def tagLastIndex (tag : String) : DescList → String → Option Nat
  | .nil, _ => none
  | .cons t tl, s =>
    match tagLastIndex tag tl s with
    | some j => some (j + 1)
    | none => if getTagValue tag t = some s then some 0 else none

/-- The name of the internal `TagValue = keyof(tagValues)` runtime type. -/
def keyofNameOf (tag : String) (ts : DescList) : String :=
  "(keyof " ++ jsonStrArray (tagKeys tag ts) ++ ")"

mutual
/-- The type guard `is` of each descriptor. -/
def dis : Desc → Value → Bool
  | .nullT, v => v = .vNull
  | .undefT, v => v = .vUndefinedV
  | .anyT, _ => true
  | .neverT, _ => false
  | .stringT, v => typeofStr v = "string"
  | .numberT, v => typeofStr v = "number"
  | .booleanT, v => typeofStr v = "boolean"
  | .arrAnyT, v => isArrB v
  | .dictAnyT, v => dictIs v
  | .objectT, v => dictIs v
  | .funcT, v => typeofStr v = "function"
  | .literalT lv, v => v = lv
  | .keyofT ks, v =>
    match v with
    | .vStr s => ks.contains s
    | _ => false
  | .refineT b p _, v => dis b v && p v
  | .arrayT e, v =>
    match v with
    | .vArr xs => ValueList.all (fun x => dis e x) xs
    | _ => false
  | .typeT ps, v => dictIs v && disProps ps v
  | .optionalT ps, v => dictIs v && disOptProps ps v
  | .dictT dom cod, v =>
    dictIs v && (jsKeys v).all (fun k => dis dom (.vStr k) && dis cod (getProp v k))
  | .unionT ts, v => disAny ts v
  | .interT ts, v => disAll ts v
  | .tupleT ts, v =>
    match v with
    | .vArr xs => xs.length = ts.length && disTuple ts xs
    | _ => false
  | .readonlyT t, v => dis t v
  | .roArrayT e, v =>
    match v with
    | .vArr xs => ValueList.all (fun x => dis e x) xs
    | _ => false
  | .strictT ps, v =>
    (dictIs v && disProps ps v) && (ownPropNames v).all (fun k => hasPropKey ps k)
  | .taggedU tag ts, v =>
    dictIs v &&
      (match getProp v tag with
       | .vStr s =>
         match tagLastIndex tag ts s with
         | some i => disNth ts i v
         | none => false
       | _ => false)
  | .custom _ cis _ _ _, v => cis v
  | .recT _ ris _ _, v => ris v

def disProps : Props → Value → Bool
  | .nil, _ => true
  | .cons k d tl, v => dis d (getProp v k) && disProps tl v

/-- The optional-props guard: each prop is wrapped in
    `union([props[k], undefined])`. -/
def disOptProps : Props → Value → Bool
  | .nil, _ => true
  | .cons k d tl, v =>
    (dis d (getProp v k) || getProp v k = .vUndefinedV) && disOptProps tl v

def disAny : DescList → Value → Bool
  | .nil, _ => false
  | .cons d tl, v => dis d v || disAny tl v

def disAll : DescList → Value → Bool
  | .nil, _ => true
  | .cons d tl, v => dis d v && disAll tl v

def disTuple : DescList → ValueList → Bool
  | .nil, _ => true
  | .cons d tl, .nil => dis d .vUndefinedV && disTuple tl .nil
  | .cons d tl, .cons x xs => dis d x && disTuple tl xs

def disNth : DescList → Nat → Value → Bool
  | .nil, _, _ => false
  | .cons d _, 0, v => dis d v
  | .cons _ tl, n + 1, v => disNth tl n v
end

/-- The element loop of `array(type).validate`, with JS aliasing made
    explicit.  State: `done` is the already-visited prefix of the input
    array `xs` *as it stands in memory* (the loop body may mutate `xs`),
    `rem` the unvisited suffix, `i = done.length` the current index, and
    `fresh` is `some l` once `a` points at a fresh copy `l`, `none` while
    `a` still aliases `xs`.  The source reads

      if (validation !== x) \x7b
        if (a === validation) \x7b a = xs.slice() \x7d
        a[i] = validation
      \x7d

    so while `a` aliases `xs` (and `a === validation` fails, as it does on
    every run below) the write `a[i] = validation` mutates the input array
    in place.  Returns (final contents of `xs`, `fresh`, errors). -/
def arrayRun (f : Value → Nat → Res) :
    ValueList → Nat → ValueList → Option ValueList → ValueList × Option ValueList × VErrors
  | .nil, _, done, fresh => (done, fresh, .nil)
  | .cons x rem, i, done, fresh =>
    match f x i with
    | .err e =>
      match arrayRun f rem (i + 1) (done.push x) fresh with
      | (d2, f2, es) => (d2, f2, .cons e es)
    | .ok w =>
      if w = x then arrayRun f rem (i + 1) (done.push x) fresh
      else
        let curXs := done.append (.cons x rem)
        let aCur := fresh.getD curXs
        if w = .vArr aCur then
          arrayRun f rem (i + 1) (done.push x) (some (curXs.set i w))
        else
          match fresh with
          | none => arrayRun f rem (i + 1) (done.push w) none
          | some l => arrayRun f rem (i + 1) (done.push x) (some (l.set i w))

/-- The per-key loop of `dictionary(domain, codomain).validate`: both the
    key and the value are validated for every key; a fresh object `a` is
    always built; `changed` records whether any key or value was
    transformed.  Returns (fields of `a`, `changed`, errors). -/
def dictGo (fd : String → Res) (fc : String → Value → Res) (o : Value) :
    List String → VFields → Bool → VFields × Bool × VErrors
  | [], a, ch => (a, ch, .nil)
  | k :: ks, a, ch =>
    let okv := getProp o k
    let dres := fd k
    let cres := fc k okv
    match dres with
    | .err de =>
      match cres with
      | .err ce =>
        match dictGo fd fc o ks a ch with
        | (a2, ch2, es) => (a2, ch2, .cons de (.cons ce es))
      | .ok vok =>
        match dictGo fd fc o ks (a.setKey k vok) (ch || decide (vok ≠ okv)) with
        | (a2, ch2, es) => (a2, ch2, .cons de es)
    | .ok vk =>
      let k2 := jsCoerceString vk
      let ch1 := ch || decide (vk ≠ .vStr k)
      match cres with
      | .err ce =>
        match dictGo fd fc o ks a ch1 with
        | (a2, ch2, es) => (a2, ch2, .cons ce es)
      | .ok vok =>
        dictGo fd fc o ks (a.setKey k2 vok) (ch1 || decide (vok ≠ okv))

/-- The extra-key scan of `strict`: one `never`-typed error per own
    property of the intermediate result that is not a declared prop. -/
def strictExtras (ps : Props) (o : Value) : List String → VErrors
  | [] => .nil
  | k :: ks =>
    if hasPropKey ps k then strictExtras ps o ks
    else .cons (.node (getProp o k) k "never" .nil) (strictExtras ps o ks)

mutual
/-- `validate`: the arguments are the input value, the path key `c` the
    caller tagged this call with (always already stringified), and the
    *name* of the `decoder` argument (validators only use the decoder to
    label the errors they construct). -/
def dvalidate : Desc → Value → String → String → Res
  | .nullT, v, c, dn => if v = .vNull then .ok v else .err (.node v c dn .nil)
  | .undefT, v, c, dn => if v = .vUndefinedV then .ok v else .err (.node v c dn .nil)
  | .anyT, v, _, _ => .ok v
  | .neverT, v, c, dn => .err (.node v c dn .nil)
  | .stringT, v, c, dn =>
    if typeofStr v = "string" then .ok v else .err (.node v c dn .nil)
  | .numberT, v, c, dn =>
    if typeofStr v = "number" then .ok v else .err (.node v c dn .nil)
  | .booleanT, v, c, dn =>
    if typeofStr v = "boolean" then .ok v else .err (.node v c dn .nil)
  | .arrAnyT, v, c, dn => if isArrB v then .ok v else .err (.node v c dn .nil)
  | .dictAnyT, v, c, dn => if dictIs v then .ok v else .err (.node v c dn .nil)
  | .objectT, v, c, dn => if dictIs v then .ok v else .err (.node v c dn .nil)
  | .funcT, v, c, dn =>
    if typeofStr v = "function" then .ok v else .err (.node v c dn .nil)
  | .literalT lv, v, c, dn => if v = lv then .ok lv else .err (.node v c dn .nil)
  | .keyofT ks, v, c, dn =>
    (match v with
     | .vStr s => if ks.contains s then Res.ok v else .err (.node v c dn .nil)
     | _ => .err (.node v c dn .nil))
  | .refineT b p _, v, c, dn =>
    (match dvalidate b v c dn with
     | .err e => Res.err e
     | .ok w => if p w then .ok w else .err (.node w c dn .nil))
  | .arrayT e, v, c, dn =>
    (match v with
     | .vArr xs =>
       (match arrayRun (fun x i => dvalidate e x (Nat.repr i) (dname e)) xs 0 .nil none with
        | (done, fresh, .nil) =>
          Res.ok (match fresh with | none => .vArr done | some l => .vArr l)
        | (done, _, .cons e1 es) => .err (.node (.vArr done) c dn (.cons e1 es)))
     | _ => Res.err (.node v c dn .nil))
  | .typeT ps, v, c, dn =>
    if dictIs v then
      match typeGo ps v v with
      | (a, .nil) => .ok a
      | (_, .cons e es) => .err (.node v c dn (.cons e es))
    else .err (.node v c dn .nil)
  | .optionalT ps, v, c, dn =>
    if dictIs v then
      match optGo ps v v with
      | (a, .nil) => .ok a
      | (_, .cons e es) => .err (.node v c dn (.cons e es))
    else .err (.node v c dn .nil)
  | .dictT dom cod, v, c, dn =>
    if dictIs v then
      match dictGo (fun k => dvalidate dom (.vStr k) k (dname dom))
          (fun k okv => dvalidate cod okv k (dname cod)) v (jsKeys v) .nil false with
      | (a, changed, .nil) => .ok (if changed then .vObj a else v)
      | (_, _, .cons e es) => .err (.node v c dn (.cons e es))
    else .err (.node v c dn .nil)
  | .unionT ts, v, c, dn =>
    (match unionGo ts v 0 with
     | .inr w => Res.ok w
     | .inl es => .err (.node v c dn es))
  | .interT ts, v, c, dn =>
    (match interGo ts v 0 with
     | (a, .nil) => Res.ok a
     | (_, .cons e es) => .err (.node v c dn (.cons e es)))
  | .tupleT ts, v, c, dn =>
    (match v with
     | .vArr xs =>
       (match tupleGo ts xs 0 xs with
        | (t, es) =>
          match (if ts.length < xs.length
                 then VErrors.append es
                   (.cons (.node (xs.get ts.length) (Nat.repr ts.length) "never" .nil) .nil)
                 else es) with
          | .nil => Res.ok (.vArr t)
          | .cons e1 es1 => .err (.node (.vArr xs) c dn (.cons e1 es1)))
     | _ => Res.err (.node v c "Array" .nil))
  | .readonlyT t, v, c, dn => dvalidate t v c dn
  | .roArrayT e, v, c, dn =>
    (match v with
     | .vArr xs =>
       (match arrayRun (fun x i => dvalidate e x (Nat.repr i) (dname e)) xs 0 .nil none with
        | (done, fresh, .nil) =>
          Res.ok (match fresh with | none => .vArr done | some l => .vArr l)
        | (done, _, .cons e1 es) => .err (.node (.vArr done) c dn (.cons e1 es)))
     | _ => Res.err (.node v c dn .nil))
  | .strictT ps, v, c, dn =>
    if dictIs v then
      match typeGo ps v v with
      | (o, .nil) =>
        (match strictExtras ps o (ownPropNames o) with
         | .nil => Res.ok o
         | .cons e es => .err (.node v "" dn (.cons e es)))
      | (_, .cons e es) => .err (.node v c (propsName ps) (.cons e es))
    else .err (.node v c (propsName ps) .nil)
  | .taggedU tag ts, v, c, dn =>
    if dictIs v then
      match getProp v tag with
      | .vStr s =>
        if (tagKeys tag ts).contains s then
          dispatchNth ts ((tagLastIndex tag ts s).getD 0) v c
        else
          .err (.node (.vStr s) " " dn
            (.cons (.node (.vStr s) tag (keyofNameOf tag ts) .nil) .nil))
      | tv =>
        .err (.node tv " " dn (.cons (.node tv tag (keyofNameOf tag ts) .nil) .nil))
    else .err (.node v c dn .nil)
  | .custom _ _ cval _ _, v, c, dn => cval v c dn
  | .recT _ _ rval _, v, c, dn => rval v c dn

/-- The per-prop loop of `type(props).validate` (structural sharing:
    `a` starts as the input `o`, and is replaced by `\x7b...o\x7d` on the
    first transformed field). -/
def typeGo : Props → Value → Value → Value × VErrors
  | .nil, _, a => (a, .nil)
  | .cons k d tl, o, a =>
    let okv := getProp o k
    match dvalidate d okv k (dname d) with
    | .err e =>
      (match typeGo tl o a with
       | (a2, es) => (a2, .cons e es))
    | .ok w =>
      if w = okv then typeGo tl o a
      else typeGo tl o (setProp (if a = o then objSpread o else a) k w)

/-- The per-prop loop of the optional-props combinator: each prop is
    validated through `union([props[k], undefined])` (member keys "0" and
    "1"), then shared structurally exactly as in `typeGo`. -/
def optGo : Props → Value → Value → Value × VErrors
  | .nil, _, a => (a, .nil)
  | .cons k d tl, o, a =>
    let okv := getProp o k
    match
      (match dvalidate d okv "0" (dname d) with
       | .ok w => Res.ok w
       | .err e0 =>
         match okv with
         | .vUndefinedV => Res.ok .vUndefinedV
         | _ =>
           Res.err (.node okv k ("(" ++ dname d ++ " | undefined)")
             (.cons e0 (.cons (.node okv "1" "undefined" .nil) .nil)))) with
    | .err e =>
      (match optGo tl o a with
       | (a2, es) => (a2, .cons e es))
    | .ok w =>
      if w = okv then optGo tl o a
      else optGo tl o (setProp (if a = o then objSpread o else a) k w)

/-- The member loop of `union(types).validate`: first success wins;
    otherwise every member's full error subtree is collected in order. -/
def unionGo : DescList → Value → Nat → Sum VErrors Value
  | .nil, _, _ => .inl .nil
  | .cons t tl, v, i =>
    match dvalidate t v (Nat.repr i) (dname t) with
    | .ok w => .inr w
    | .err e =>
      match unionGo tl v (i + 1) with
      | .inl es => .inl (.cons e es)
      | .inr w => .inr w

/-- The member loop of `intersection(types).validate`: the value is
    threaded through the members; a failing member's error *children* are
    spliced flat into the collected list. -/
def interGo : DescList → Value → Nat → Value × VErrors
  | .nil, a, _ => (a, .nil)
  | .cons t tl, a, i =>
    match dvalidate t a (Nat.repr i) (dname t) with
    | .ok w => interGo tl w (i + 1)
    | .err e =>
      match interGo tl a (i + 1) with
      | (b, es) => (b, VErrors.append e.children es)

/-- The element loop of `tuple(types).validate`.  The rebuild check here is
    the correct `t === as` one, so the contents of the result are
    `xs` with the transformed indices overwritten. -/
def tupleGo : DescList → ValueList → Nat → ValueList → ValueList × VErrors
  | .nil, _, _, t => (t, .nil)
  | .cons d tl, xs, i, t =>
    let a := xs.get i
    match dvalidate d a (Nat.repr i) (dname d) with
    | .err e =>
      (match tupleGo tl xs (i + 1) t with
       | (t2, es) => (t2, .cons e es))
    | .ok w =>
      if w = a then tupleGo tl xs (i + 1) t
      else tupleGo tl xs (i + 1) (t.set i w)

/-- `taggedUnion`'s dispatch to the member at the resolved index, which is
    passed the incoming path key and itself as decoder. -/
def dispatchNth : DescList → Nat → Value → String → Res
  | .nil, _, v, c => .err (.node v c "never" .nil)
  | .cons t _, 0, v, c => dvalidate t v c (dname t)
  | .cons _ tl, n + 1, v, c => dispatchNth tl n v c
end

mutual
/-- Whether the descriptor's `encode` field is the library's `identity`
    function (`useIdentity` for props; `types.every(t => t.encode ===
    identity)` for member lists; `never`'s encode is a throwing lambda). -/
def encId : Desc → Bool
  | .neverT => false
  | .refineT b _ _ => encId b
  | .arrayT e => encId e
  | .typeT ps => encIdProps ps
  | .optionalT ps => encIdProps ps
  | .dictT dom cod => encId dom && encId cod
  | .unionT ts => encIdList ts
  | .interT ts => encIdList ts
  | .tupleT ts => encIdList ts
  | .readonlyT t => encId t
  | .roArrayT e => encId e
  | .strictT ps => encIdProps ps
  | .taggedU _ ts => encIdList ts
  | .custom _ _ _ _ b => b
  | .recT _ _ _ _ => false
  | _ => true

def encIdProps : Props → Bool
  | .nil => true
  | .cons _ d tl => encId d && encIdProps tl

def encIdList : DescList → Bool
  | .nil => true
  | .cons d tl => encId d && encIdList tl
end

/-- The element loop of `array`'s non-identity encoder (`a.map(encode)`). -/
def arrEncGo (f : Value → Option Value) : ValueList → Option ValueList
  | .nil => some .nil
  | .cons x tl =>
    match f x with
    | none => none
    | some w =>
      match arrEncGo f tl with
      | none => none
      | some ws => some (.cons w ws)

/-- The key/value loop of `dictionary`'s non-identity encoder. -/
def dictEnc (fd fc : Value → Option Value) (a : Value) :
    List String → VFields → Option VFields
  | [], s => some s
  | k :: ks, s =>
    match fd (.vStr k), fc (getProp a k) with
    | some dk, some cv => dictEnc fd fc a ks (s.setKey (jsCoerceString dk) cv)
    | _, _ => none

mutual
/-- `encode`; `none` models a thrown exception (`never`'s encoder, or an
    out-of-domain dispatch). -/
def dencode : Desc → Value → Option Value
  | .neverT, _ => none
  | .literalT _, v => some v
  | .keyofT _, v => some v
  | .refineT b _ _, v => dencode b v
  | .arrayT e, v =>
    if encId e then some v
    else
      match v with
      | .vArr xs => (arrEncGo (fun x => dencode e x) xs).map .vArr
      | _ => none
  | .typeT ps, v =>
    if encIdProps ps then some v else (typeEnc ps v (spreadFields v)).map .vObj
  | .optionalT ps, v =>
    if encIdProps ps then some v else (optEnc ps v .nil).map .vObj
  | .dictT dom cod, v =>
    if encId dom && encId cod then some v
    else
      (dictEnc (fun x => dencode dom x) (fun x => dencode cod x) v (jsKeys v) .nil).map .vObj
  | .unionT ts, v => if encIdList ts then some v else encUnionGo ts v
  | .interT ts, v => if encIdList ts then some v else interEnc ts v
  | .tupleT ts, v =>
    if encIdList ts then some v
    else
      match v with
      | .vArr xs => (tupleEnc ts xs 0).map .vArr
      | _ => none
  | .readonlyT t, v => if encId t then some v else dencode t v
  | .roArrayT e, v =>
    if encId e then some v
    else
      match v with
      | .vArr xs => (arrEncGo (fun x => dencode e x) xs).map .vArr
      | _ => none
  | .strictT ps, v =>
    if encIdProps ps then some v else (typeEnc ps v (spreadFields v)).map .vObj
  | .taggedU tag ts, v =>
    if encIdList ts then some v
    else
      match getProp v tag with
      | .vStr s =>
        match tagLastIndex tag ts s with
        | some i => encNth ts i v
        | none => none
      | _ => none
  | .custom _ _ _ cenc _, v => cenc v
  | .recT _ _ _ renc, v => renc v
  | _, v => some v

/-- `s = \x7b...a\x7d; for k in props: s[k] = props[k].encode(a[k])`. -/
def typeEnc : Props → Value → VFields → Option VFields
  | .nil, _, s => some s
  | .cons k d tl, a, s =>
    match dencode d (getProp a k) with
    | none => none
    | some w => typeEnc tl a (s.setKey k w)

/-- The optional-props encoder builds a fresh object and *omits* keys whose
    value is `undefined` (and any key not in the props map). -/
def optEnc : Props → Value → VFields → Option VFields
  | .nil, _, s => some s
  | .cons k d tl, a, s =>
    match getProp a k with
    | .vUndefinedV => optEnc tl a s
    | ak =>
      match dencode d ak with
      | none => none
      | some w => optEnc tl a (s.setKey k w)

/-- Union's non-identity encoder: first member whose guard accepts, the
    last member as fallback. -/
def encUnionGo : DescList → Value → Option Value
  | .nil, _ => none
  | .cons t .nil, v => dencode t v
  | .cons t (.cons u tl), v =>
    if dis t v then dencode t v else encUnionGo (.cons u tl) v

def interEnc : DescList → Value → Option Value
  | .nil, s => some s
  | .cons t tl, s =>
    match dencode t s with
    | none => none
    | some w => interEnc tl w

def tupleEnc : DescList → ValueList → Nat → Option ValueList
  | .nil, _, _ => some .nil
  | .cons d tl, xs, i =>
    match dencode d (xs.get i) with
    | none => none
    | some w =>
      match tupleEnc tl xs (i + 1) with
      | none => none
      | some ws => some (.cons w ws)

def encNth : DescList → Nat → Value → Option Value
  | .nil, _, _ => none
  | .cons t _, 0, v => dencode t v
  | .cons _ tl, n + 1, v => encNth tl n v
end

mutual
/-- No opaque node anywhere: neither a `custom` leaf (a hand-written
    `new Type(...)`) nor a `recursion` node, whose behavior delegates to
    functions rather than to the grammar's structure.  On such a
    descriptor every `is`/`validate`/`encode` is determined by the
    syntax tree. -/
def noCustom : Desc → Bool
  | .custom _ _ _ _ _ => false
  | .recT _ _ _ _ => false
  | .refineT b _ _ => noCustom b
  | .arrayT e => noCustom e
  | .typeT ps => noCustomProps ps
  | .optionalT ps => noCustomProps ps
  | .dictT dom cod => noCustom dom && noCustom cod
  | .unionT ts => noCustomList ts
  | .interT ts => noCustomList ts
  | .tupleT ts => noCustomList ts
  | .readonlyT t => noCustom t
  | .roArrayT e => noCustom e
  | .strictT ps => noCustomProps ps
  | .taggedU _ ts => noCustomList ts
  | _ => true

def noCustomProps : Props → Bool
  | .nil => true
  | .cons _ d tl => noCustom d && noCustomProps tl

def noCustomList : DescList → Bool
  | .nil => true
  | .cons d tl => noCustom d && noCustomList tl
end

mutual
/-- The `never` primitive occurs nowhere in the descriptor's syntax tree
    (opaque `custom`/`recT` nodes are not inspected; theorems using this
    predicate exclude them through `noCustom`). -/
def noNever : Desc → Bool
  | .neverT => false
  | .refineT b _ _ => noNever b
  | .arrayT e => noNever e
  | .typeT ps => noNeverProps ps
  | .optionalT ps => noNeverProps ps
  | .dictT dom cod => noNever dom && noNever cod
  | .unionT ts => noNeverList ts
  | .interT ts => noNeverList ts
  | .tupleT ts => noNeverList ts
  | .readonlyT t => noNever t
  | .roArrayT e => noNever e
  | .strictT ps => noNeverProps ps
  | .taggedU _ ts => noNeverList ts
  | _ => true

def noNeverProps : Props → Bool
  | .nil => true
  | .cons _ d tl => noNever d && noNeverProps tl

def noNeverList : DescList → Bool
  | .nil => true
  | .cons d tl => noNever d && noNeverList tl
end

/-- `decode(i) = validate(i, '', this)`. -/
def ddecode (d : Desc) (v : Value) : Res :=
  dvalidate d v "" (dname d)

/-- One step of an error path: the `\x7bkey, type\x7d` pair (only the
    type's name is consumed by the reporter). -/
structure CtxEntry where
  key : String
  ty : String
  deriving DecidableEq

mutual
/-- `convertError`: flatten the error tree into per-leaf
    (value, root-to-leaf context) pairs. -/
def convertError : VError → List (Value × List CtxEntry)
  | .node v k t .nil => [(v, [⟨k, t⟩])]
  | .node _ k t (.cons c cs) =>
    (convertErrors (.cons c cs)).map (fun p => (p.1, ⟨k, t⟩ :: p.2))

def convertErrors : VErrors → List (Value × List CtxEntry)
  | .nil => []
  | .cons e tl => convertError e ++ convertErrors tl
end

/-- `getContextPath`. -/
def getContextPath (ctx : List CtxEntry) : String :=
  String.intercalate "/" (ctx.map (fun en => en.key ++ ": " ++ en.ty))

/-- `getMessage`. -/
def getMessage (v : Value) (ctx : List CtxEntry) : String :=
  "Invalid value " ++ stringify v ++ " supplied to " ++ getContextPath ctx

/-- `PathReporter.report` on a failure: `failure(convertError(e))`. -/
def pathReport (e : VError) : List String :=
  (convertError e).map (fun p => getMessage p.1 p.2)

mutual
/-- The number of leaves of an error tree. -/
def leafCount : VError → Nat
  | .node _ _ _ .nil => 1
  | .node _ _ _ (.cons c cs) => leafCountList (.cons c cs)

def leafCountList : VErrors → Nat
  | .nil => 0
  | .cons e tl => leafCount e + leafCountList tl
end

mutual
/-- Modelled from the spec's reporting clause: walk the tree depth first
    with an explicit root-to-here accumulator of `\x7bkey\x7d: \x7bname\x7d`
    pairs, and emit one message per leaf, in left-to-right leaf order. -/
def dfsLeafMsgs (acc : List CtxEntry) : VError → List String
  | .node v k t .nil => [getMessage v (acc ++ [⟨k, t⟩])]
  | .node _ k t (.cons c cs) => dfsLeafMsgsList (acc ++ [⟨k, t⟩]) (.cons c cs)

def dfsLeafMsgsList (acc : List CtxEntry) : VErrors → List String
  | .nil => []
  | .cons e tl => dfsLeafMsgs acc e ++ dfsLeafMsgsList acc tl
end

/-- A run of the union member loop in which every listed member fails,
    member `j` (at overall index `i + j`) failing with the error tree
    `es[j]`: the hypotheses record one `validate` call per member, in
    declaration order. -/
inductive UnionFails (v : Value) : DescList → Nat → VErrors → Prop
  | nil (i : Nat) : UnionFails v .nil i .nil
  | cons (t : Desc) (tl : DescList) (i : Nat) (e : VError) (es : VErrors) :
      dvalidate t v (Nat.repr i) (dname t) = .err e →
      UnionFails v tl (i + 1) es →
      UnionFails v (.cons t tl) i (.cons e es)

/-- A run of the intersection member loop: the value is threaded member by
    member (a successful member's output feeds the next member; a failing
    member leaves it unchanged), and each failing member contributes the
    *children* of its error node, spliced flat, in member order. -/
inductive InterTrace : DescList → Nat → Value → Value → VErrors → Prop
  | nil (i : Nat) (a : Value) : InterTrace .nil i a a .nil
  | ok (t : Desc) (tl : DescList) (i : Nat) (a w b : Value) (es : VErrors) :
      dvalidate t a (Nat.repr i) (dname t) = .ok w →
      InterTrace tl (i + 1) w b es →
      InterTrace (.cons t tl) i a b es
  | err (t : Desc) (tl : DescList) (i : Nat) (a b : Value) (e : VError) (es : VErrors) :
      dvalidate t a (Nat.repr i) (dname t) = .err e →
      InterTrace tl (i + 1) a b es →
      InterTrace (.cons t tl) i a b (VErrors.append e.children es)

def VErrors.anyB (p : VError → Bool) : VErrors → Bool
  | .nil => false
  | .cons e tl => p e || VErrors.anyB p tl

def VErrors.ofList : List VError → VErrors
  | [] => .nil
  | e :: tl => .cons e (VErrors.ofList tl)

def DescList.inductionOn {motive : DescList → Prop} :
    (ts : DescList) → motive .nil → (∀ d tl, motive tl → motive (.cons d tl)) → motive ts
  | .nil, h1, _ => h1
  | .cons d tl, h1, h2 => h2 d tl (DescList.inductionOn tl h1 h2)

def Props.inductionOn {motive : Props → Prop} :
    (ps : Props) → motive .nil → (∀ k d tl, motive tl → motive (.cons k d tl)) → motive ps
  | .nil, h1, _ => h1
  | .cons k d tl, h1, h2 => h2 k d tl (Props.inductionOn tl h1 h2)

def ValueList.inductionOn {motive : ValueList → Prop} :
    (xs : ValueList) → motive .nil → (∀ v tl, motive tl → motive (.cons v tl)) → motive xs
  | .nil, h1, _ => h1
  | .cons v tl, h1, h2 => h2 v tl (ValueList.inductionOn tl h1 h2)

inductive VLMem (x : Value) : ValueList → Prop
  | head (tl : ValueList) : VLMem x (.cons x tl)
  | tail (y : Value) (tl : ValueList) : VLMem x tl → VLMem x (.cons y tl)

/-- "validate can only succeed with its exact input": the per-descriptor
    induction hypothesis of the round-trip development. -/
def RetEq (d : Desc) : Prop :=
  ∀ (v : Value) (c dn : String) (w : Value), dvalidate d v c dn = .ok w → w = v

/-- The test helpers' custom `DateFromNumber` runtime type: decodes a
    number to a `Date`, encodes a `Date` back to its time value; its
    encode is not the `identity` function. -/
def dateFromNumber : Desc :=
  .custom "DateFromNumber"
    (fun v => match v with | .vDate _ => true | _ => false)
    (fun v c _dn =>
      match v with
      | .vNum n => .ok (.vDate n)
      | _ => .err (.node v c "number" .nil))
    (fun v => match v with | .vDate t => some (.vNum t) | _ => none)
    false

/-- `recursion('R', _ => string)`: the memoized definition is `string`,
    so the delegate functions are string's `is`/`validate`/`encode`
    (validate receives the forwarded `(m, c, decoder)` triple).  The
    node's own `encode` field is still the fresh closure
    `a => runDefinition().encode(a)`, never reference-equal to
    `identity`, which `encId (.recT ..) = false` records. -/
def recString : Desc :=
  .recT "R" (fun v => dis .stringT v) (fun v c dn => dvalidate .stringT v c dn)
    (fun v => dencode .stringT v)

/-- "`is` implies `validate` succeeds with the input itself": the other
    half of the round-trip induction. -/
def IsOk (d : Desc) : Prop :=
  ∀ v : Value, dis d v = true → ∀ c dn : String, dvalidate d v c dn = .ok v

/-! ## Lemmas and theorems -/

theorem convert_dfs_aux :
    ∀ n : Nat,
      (∀ e : VError, sizeOf e < n → ∀ acc : List CtxEntry,
        (convertError e).map (fun p => getMessage p.1 (acc ++ p.2)) = dfsLeafMsgs acc e) ∧
      (∀ es : VErrors, sizeOf es < n → ∀ acc : List CtxEntry,
        (convertErrors es).map (fun p => getMessage p.1 (acc ++ p.2)) = dfsLeafMsgsList acc es) := by
  intro n
  induction n with
  | zero => exact ⟨fun e h => absurd h (by omega), fun es h => absurd h (by omega)⟩
  | succ n ih =>
    constructor
    · intro e he acc
      match e with
      | .node v k t .nil => rfl
      | .node v k t (.cons c cs) =>
        have hsz : sizeOf (VErrors.cons c cs) < n := by
          rw [VError.node.sizeOf_spec] at he; omega
        have step :
            (convertErrors (VErrors.cons c cs)).map
                (fun p => getMessage p.1 ((acc ++ [⟨k, t⟩]) ++ p.2))
              = dfsLeafMsgsList (acc ++ [⟨k, t⟩]) (VErrors.cons c cs) :=
          ih.2 (VErrors.cons c cs) hsz (acc ++ [⟨k, t⟩])
        simp only [convertError, dfsLeafMsgs, List.map_map]
        rw [← step]
        apply List.map_congr_left
        intro p _
        show getMessage p.1 (acc ++ ⟨k, t⟩ :: p.2) = getMessage p.1 ((acc ++ [⟨k, t⟩]) ++ p.2)
        rw [List.append_assoc]
        rfl
    · intro es hes acc
      match es with
      | .nil => rfl
      | .cons e tl =>
        have h1 : sizeOf e < n := by rw [VErrors.cons.sizeOf_spec] at hes; omega
        have h2 : sizeOf tl < n := by rw [VErrors.cons.sizeOf_spec] at hes; omega
        simp only [convertErrors, dfsLeafMsgsList, List.map_append]
        rw [ih.1 e h1 acc, ih.2 tl h2 acc]

theorem leafCount_aux :
    ∀ n : Nat,
      (∀ e : VError, sizeOf e < n → (convertError e).length = leafCount e) ∧
      (∀ es : VErrors, sizeOf es < n → (convertErrors es).length = leafCountList es) := by
  intro n
  induction n with
  | zero => exact ⟨fun e h => absurd h (by omega), fun es h => absurd h (by omega)⟩
  | succ n ih =>
    constructor
    · intro e he
      match e with
      | .node v k t .nil => rfl
      | .node v k t (.cons c cs) =>
        have hsz : sizeOf (VErrors.cons c cs) < n := by
          rw [VError.node.sizeOf_spec] at he; omega
        simp only [convertError, leafCount, List.length_map]
        rw [← ih.2 (VErrors.cons c cs) hsz]
    · intro es hes
      match es with
      | .nil => rfl
      | .cons e tl =>
        have h1 : sizeOf e < n := by rw [VErrors.cons.sizeOf_spec] at hes; omega
        have h2 : sizeOf tl < n := by rw [VErrors.cons.sizeOf_spec] at hes; omega
        simp only [convertErrors, leafCountList, List.length_append]
        rw [ih.1 e h1, ih.2 tl h2]

/-- Claim C9: for every failure whose error tree has `k` leaves, the path
    reporter returns exactly `k` message strings, in left-to-right
    (depth-first) leaf order, each of the form
    `"Invalid value <repr> supplied to <path>"` where the path joins the
    root-to-leaf `\x7bkey\x7d: \x7bdescriptor name\x7d` pairs and `<repr>`
    is the JSON rendering of the leaf's raw value (functions rendered by
    name): the reporter's output coincides with the depth-first
    leaf-message walk `dfsLeafMsgs`, and its length is the leaf count. -/
theorem C9_path_reporter (e : VError) :
    pathReport e = dfsLeafMsgs [] e ∧ (pathReport e).length = leafCount e := by
  constructor
  · have := (convert_dfs_aux (sizeOf e + 1)).1 e (by omega) []
    simpa [pathReport] using this
  · have := (leafCount_aux (sizeOf e + 1)).1 e (by omega)
    simpa [pathReport] using this


theorem unionGo_allfail {v : Value} :
    ∀ {ts : DescList} {i : Nat} {es : VErrors},
      UnionFails v ts i es → unionGo ts v i = .inl es := by
  intro ts i es h
  induction h with
  | nil => rfl
  | cons t tl i e es he _ ih =>
    simp only [unionGo, he, ih]

theorem unionGo_first_ok {v : Value} :
    ∀ {pre : DescList} {i : Nat} {es : VErrors} (post : DescList) (t : Desc) (w : Value),
      UnionFails v pre i es →
      dvalidate t v (Nat.repr (i + pre.length)) (dname t) = .ok w →
      unionGo (pre.append (.cons t post)) v i = .inr w := by
  intro pre i es post t w h
  induction h with
  | nil i =>
    intro ht
    simp only [DescList.length] at ht
    simp only [DescList.append, unionGo]
    rw [show i + 0 = i from rfl] at ht
    rw [ht]
  | cons t0 tl i e es he _ ih =>
    intro ht
    have harith : i + (DescList.cons t0 tl).length = (i + 1) + tl.length := by
      simp only [DescList.length]; omega
    rw [harith] at ht
    have := ih ht
    simp only [DescList.append, unionGo, he, this]

/-- Claim C2: union tries its members in declaration order; the first
    member whose `validate` succeeds wins and its result is returned, no
    matter what the later members are; if every member fails, the union
    fails with one error node whose children are the members\' full error
    subtrees, one per member, in member order. -/
theorem C2_union_order :
    (∀ (pre post : DescList) (t : Desc) (v w : Value) (c dn : String) (es : VErrors),
      UnionFails v pre 0 es →
      dvalidate t v (Nat.repr pre.length) (dname t) = .ok w →
      dvalidate (.unionT (pre.append (.cons t post))) v c dn = .ok w)
    ∧ (∀ (ts : DescList) (v : Value) (c dn : String) (es : VErrors),
      UnionFails v ts 0 es →
      dvalidate (.unionT ts) v c dn = .err (.node v c dn es)) := by
  constructor
  · intro pre post t v w c dn es h ht
    have := unionGo_first_ok post t w h (by simpa using ht)
    simp only [dvalidate, this]
  · intro ts v c dn es h
    have := unionGo_allfail h
    simp only [dvalidate, this]

/-- Witness for C2: `union([number, string, boolean])` on `"5"` decodes via
    `string` (index 1), the trailing `boolean` never consulted; and
    `union([number, boolean])` on `"x"` fails with both member subtrees as
    children, in order. -/
theorem C2_union_order_witness :
    dvalidate (.unionT (.cons .numberT (.cons .stringT (.cons .booleanT .nil))))
        (.vStr "5") "" "U" = .ok (.vStr "5")
    ∧ dvalidate (.unionT (.cons .numberT (.cons .booleanT .nil))) (.vStr "x") "" "U"
      = .err (.node (.vStr "x") "" "U"
          (.cons (.node (.vStr "x") "0" "number" .nil)
            (.cons (.node (.vStr "x") "1" "boolean" .nil) .nil))) := by
  constructor
  · exact C2_union_order.1 (.cons .numberT .nil) (.cons .booleanT .nil) .stringT
      (.vStr "5") (.vStr "5") "" "U" (.cons (.node (.vStr "5") "0" "number" .nil) .nil)
      (UnionFails.cons _ _ _ _ _ (by decide) (UnionFails.nil 1)) (by decide)
  · exact C2_union_order.2 (.cons .numberT (.cons .booleanT .nil)) (.vStr "x") "" "U"
      (.cons (.node (.vStr "x") "0" "number" .nil)
        (.cons (.node (.vStr "x") "1" "boolean" .nil) .nil))
      (UnionFails.cons _ _ _ _ _ (by decide)
        (UnionFails.cons _ _ _ _ _ (by decide) (UnionFails.nil 2)))


theorem interGo_trace :
    ∀ {ts : DescList} {i : Nat} {a b : Value} {es : VErrors},
      InterTrace ts i a b es → interGo ts a i = (b, es) := by
  intro ts i a b es h
  induction h with
  | nil => rfl
  | ok t tl i a w b es ht _ ih => simp only [interGo, ht, ih]
  | err t tl i a b e es ht _ ih => simp only [interGo, ht, ih]

/-- Counterexample to C3 as stated: on `intersection([string, number])`
    applied to `true`, both members fail (shown for the first), yet the
    intersection *succeeds*: both failures are childless leaves, so the
    flat splice collects no children and the error list stays empty. -/
theorem C3_counterexample :
    dvalidate .stringT (.vBool true) "0" "string"
        = .err (.node (.vBool true) "0" "string" .nil)
    ∧ dvalidate .numberT (.vBool true) "1" "number"
        = .err (.node (.vBool true) "1" "number" .nil)
    ∧ dvalidate (.interT (.cons .stringT (.cons .numberT .nil))) (.vBool true) "" "I"
        = .ok (.vBool true) := by
  refine ⟨by decide, by decide, by decide⟩

/-- Claim C3, amended: running the members sequentially (each consuming the
    previous member's output), the intersection collects, flat and in
    member order, the *children* of each failing member's error node (not
    one wrapped subtree per member as union does); it returns a failure
    carrying exactly this concatenation when the concatenation is
    nonempty, and — the amendment — succeeds with the threaded value when
    every failing member's error is childless, even if members failed. -/
theorem C3_intersection_splice (ts : DescList) (v b : Value) (c dn : String)
    (es : VErrors) (h : InterTrace ts 0 v b es) :
    (es = .nil → dvalidate (.interT ts) v c dn = .ok b)
    ∧ (∀ e es', es = .cons e es' →
        dvalidate (.interT ts) v c dn = .err (.node v c dn es)) := by
  have hgo := interGo_trace h
  constructor
  · intro hnil
    subst hnil
    simp only [dvalidate, hgo]
  · intro e es' hcons
    subst hcons
    simp only [dvalidate, hgo]

/-- Witness for C3: `intersection([type(\x7ba: string\x7d),
    type(\x7bb: number\x7d)])` on `\x7ba: 1, b: "x"\x7d` fails with the two
    field leaves spliced flat, in member order, one level up. -/
theorem C3_intersection_splice_witness :
    dvalidate (.interT (.cons (.typeT (.cons "a" .stringT .nil))
        (.cons (.typeT (.cons "b" .numberT .nil)) .nil)))
      (.vObj (.cons "a" (.vNum 1) (.cons "b" (.vStr "x") .nil))) "" "I"
    = .err (.node (.vObj (.cons "a" (.vNum 1) (.cons "b" (.vStr "x") .nil))) "" "I"
        (.cons (.node (.vNum 1) "a" "string" .nil)
          (.cons (.node (.vStr "x") "b" "number" .nil) .nil))) := by
  have h : InterTrace (.cons (.typeT (.cons "a" .stringT .nil))
      (.cons (.typeT (.cons "b" .numberT .nil)) .nil)) 0
      (.vObj (.cons "a" (.vNum 1) (.cons "b" (.vStr "x") .nil)))
      (.vObj (.cons "a" (.vNum 1) (.cons "b" (.vStr "x") .nil)))
      (.cons (.node (.vNum 1) "a" "string" .nil)
        (.cons (.node (.vStr "x") "b" "number" .nil) .nil)) := by
    have h1 := InterTrace.err (.typeT (.cons "a" .stringT .nil))
      (.cons (.typeT (.cons "b" .numberT .nil)) .nil) 0
      (.vObj (.cons "a" (.vNum 1) (.cons "b" (.vStr "x") .nil)))
      (.vObj (.cons "a" (.vNum 1) (.cons "b" (.vStr "x") .nil)))
      (.node (.vObj (.cons "a" (.vNum 1) (.cons "b" (.vStr "x") .nil))) "0"
        "\x7b a: string \x7d" (.cons (.node (.vNum 1) "a" "string" .nil) .nil))
      (.cons (.node (.vStr "x") "b" "number" .nil) .nil)
      (by decide)
      (InterTrace.err (.typeT (.cons "b" .numberT .nil)) .nil 1
        (.vObj (.cons "a" (.vNum 1) (.cons "b" (.vStr "x") .nil)))
        (.vObj (.cons "a" (.vNum 1) (.cons "b" (.vStr "x") .nil)))
        (.node (.vObj (.cons "a" (.vNum 1) (.cons "b" (.vStr "x") .nil))) "1"
          "\x7b b: number \x7d" (.cons (.node (.vStr "x") "b" "number" .nil) .nil))
        .nil
        (by decide) (InterTrace.nil 2 _))
    exact h1
  exact (C3_intersection_splice _ _ _ "" "I" _ h).2 _ _ rfl

theorem dlMem_size {t : Desc} : ∀ {ts : DescList}, DescList.Mem t ts → sizeOf t < sizeOf ts := by
  intro ts h
  induction h with
  | head tl => rw [DescList.cons.sizeOf_spec]; omega
  | tail d' tl _ ih => rw [DescList.cons.sizeOf_spec]; omega

theorem noCustomList_mem {t : Desc} :
    ∀ {ts : DescList}, noCustomList ts = true → DescList.Mem t ts → noCustom t = true := by
  intro ts hts h
  induction h with
  | head tl => simp only [noCustomList, Bool.and_eq_true] at hts; exact hts.1
  | tail d' tl _ ih =>
    simp only [noCustomList, Bool.and_eq_true] at hts; exact ih hts.2

theorem dispatchNth_err :
    ∀ (i : Nat) (ts : DescList) (v : Value) (c : String) (e : VError),
      dispatchNth ts i v c = .err e →
      (∃ t, DescList.Mem t ts ∧ dvalidate t v c (dname t) = .err e)
      ∨ e = .node v c "never" .nil := by
  intro i
  induction i with
  | zero =>
    intro ts v c e h
    match ts with
    | .nil => cases h; exact Or.inr rfl
    | .cons t tl => exact Or.inl ⟨t, DescList.Mem.head tl, h⟩
  | succ n ih =>
    intro ts v c e h
    match ts with
    | .nil => cases h; exact Or.inr rfl
    | .cons t tl =>
      rcases ih tl v c e h with ⟨t', hm, hv⟩ | hk
      · exact Or.inl ⟨t', DescList.Mem.tail t tl hm, hv⟩
      · exact Or.inr hk

/-- On custom-free descriptors, the key of a returned top-level error node
    is always the incoming path key, `""` (strict's extra-key error) or
    `" "` (tagged union's discriminant error). -/
theorem errKey_aux :
    ∀ n : Nat, ∀ d : Desc, sizeOf d < n → ∀ v : Value, ∀ c dn : String, ∀ e : VError,
      noCustom d = true → dvalidate d v c dn = .err e →
      e.key = c ∨ e.key = "" ∨ e.key = " " := by
  intro n
  induction n with
  | zero => intro d h; exact absurd h (by omega)
  | succ n ih =>
    intro d hd v c dn e hnc hv
    match d with
    | .nullT | .undefT | .stringT | .numberT | .booleanT | .arrAnyT | .dictAnyT
    | .objectT | .funcT | .literalT _ =>
      simp only [dvalidate] at hv
      split at hv
      · exact Res.noConfusion hv
      · cases hv; exact Or.inl rfl
    | .anyT => exact Res.noConfusion hv
    | .neverT =>
      simp only [dvalidate] at hv
      cases hv; exact Or.inl rfl
    | .keyofT ks =>
      simp only [dvalidate] at hv
      split at hv
      · split at hv
        · exact Res.noConfusion hv
        · cases hv; exact Or.inl rfl
      · cases hv; exact Or.inl rfl
    | .refineT b p nm =>
      have hb : sizeOf b < n := by
        rw [Desc.refineT.sizeOf_spec] at hd; omega
      have hncb : noCustom b = true := hnc
      match hbv : dvalidate b v c dn with
      | .err e1 =>
        simp only [dvalidate, hbv] at hv
        cases hv
        exact ih b hb v c dn _ hncb hbv
      | .ok w =>
        simp only [dvalidate, hbv] at hv
        split at hv
        · exact Res.noConfusion hv
        · cases hv; exact Or.inl rfl
    | .readonlyT t =>
      have hb : sizeOf t < n := by
        rw [Desc.readonlyT.sizeOf_spec] at hd; omega
      have hncb : noCustom t = true := hnc
      simp only [dvalidate] at hv
      exact ih t hb v c dn e hncb hv
    | .arrayT el =>
      cases v with
      | vArr xs =>
        simp only [dvalidate] at hv
        split at hv
        · exact Res.noConfusion hv
        · cases hv; exact Or.inl rfl
      | vNull | vUndefinedV | vStr _ | vNum _ | vBool _ | vObj _ | vDate _ | vFunc _ _ =>
        simp only [dvalidate] at hv
        cases hv
        exact Or.inl rfl
    | .roArrayT el =>
      cases v with
      | vArr xs =>
        simp only [dvalidate] at hv
        split at hv
        · exact Res.noConfusion hv
        · cases hv; exact Or.inl rfl
      | vNull | vUndefinedV | vStr _ | vNum _ | vBool _ | vObj _ | vDate _ | vFunc _ _ =>
        simp only [dvalidate] at hv
        cases hv
        exact Or.inl rfl
    | .typeT ps =>
      simp only [dvalidate] at hv
      split at hv
      · split at hv
        · exact Res.noConfusion hv
        · cases hv; exact Or.inl rfl
      · cases hv; exact Or.inl rfl
    | .optionalT ps =>
      simp only [dvalidate] at hv
      split at hv
      · split at hv
        · exact Res.noConfusion hv
        · cases hv; exact Or.inl rfl
      · cases hv; exact Or.inl rfl
    | .dictT dom cod =>
      simp only [dvalidate] at hv
      split at hv
      · split at hv
        · exact Res.noConfusion hv
        · cases hv; exact Or.inl rfl
      · cases hv; exact Or.inl rfl
    | .unionT ts =>
      simp only [dvalidate] at hv
      split at hv
      · exact Res.noConfusion hv
      · cases hv; exact Or.inl rfl
    | .interT ts =>
      simp only [dvalidate] at hv
      split at hv
      · exact Res.noConfusion hv
      · cases hv; exact Or.inl rfl
    | .tupleT ts =>
      cases v with
      | vArr xs =>
        simp only [dvalidate] at hv
        split at hv
        · exact Res.noConfusion hv
        · cases hv; exact Or.inl rfl
      | vNull | vUndefinedV | vStr _ | vNum _ | vBool _ | vObj _ | vDate _ | vFunc _ _ =>
        simp only [dvalidate] at hv
        cases hv
        exact Or.inl rfl
    | .strictT ps =>
      simp only [dvalidate] at hv
      split at hv
      · split at hv
        · split at hv
          · exact Res.noConfusion hv
          · cases hv; exact Or.inr (Or.inl rfl)
        · cases hv; exact Or.inl rfl
      · cases hv; exact Or.inl rfl
    | .taggedU tag ts =>
      have hts : sizeOf ts < n := by
        rw [Desc.taggedU.sizeOf_spec] at hd; omega
      have hncl : noCustomList ts = true := hnc
      simp only [dvalidate] at hv
      split at hv
      · split at hv
        · split at hv
          · rcases dispatchNth_err _ ts v c e hv with ⟨t, hm, hval⟩ | hk
            · have : sizeOf t < n := lt_trans (dlMem_size hm) hts
              exact ih t this v c (dname t) e (noCustomList_mem hncl hm) hval
            · subst hk; exact Or.inl rfl
          · cases hv; exact Or.inr (Or.inr rfl)
        · cases hv; exact Or.inr (Or.inr rfl)
      · cases hv; exact Or.inl rfl
    | .custom nm cis cval cenc cid =>
      exact Bool.noConfusion hnc


theorem tupleGo_err_keys :
    ∀ (nn : Nat) (ds : DescList), ds.length = nn → noCustomList ds = true →
      ∀ (xs t : ValueList) (i : Nat) (t' : ValueList) (es : VErrors),
        tupleGo ds xs i t = (t', es) →
        ∀ e : VError, VErrors.Mem e es →
          e.key = "" ∨ e.key = " " ∨ ∃ j, i ≤ j ∧ j < i + ds.length ∧ e.key = Nat.repr j := by
  intro nn
  induction nn with
  | zero =>
    intro ds hlen _ xs t i t' es hgo e hm
    match ds, hlen with
    | .nil, _ =>
      cases hgo
      cases hm
  | succ n ihn =>
    intro ds hlen hnc xs t i t' es hgo e hm
    match ds, hlen with
    | .cons d tl, hlen =>
      have hncd : noCustom d = true := by
        have : (noCustom d && noCustomList tl) = true := hnc
        exact (Bool.and_eq_true _ _).mp this |>.1
      have hnctl : noCustomList tl = true := by
        have : (noCustom d && noCustomList tl) = true := hnc
        exact (Bool.and_eq_true _ _).mp this |>.2
      have hlen' : tl.length = n := by
        simp only [DescList.length] at hlen; omega
      match hval : dvalidate d (xs.get i) (Nat.repr i) (dname d) with
      | .err e0 =>
        rcases htl : tupleGo tl xs (i + 1) t with ⟨t2, es2⟩
        have : tupleGo (.cons d tl) xs i t = (t2, .cons e0 es2) := by
          simp only [tupleGo, hval, htl]
        rw [this] at hgo
        cases hgo
        cases hm with
        | head =>
          rcases errKey_aux (sizeOf d + 1) d (by omega) (xs.get i) (Nat.repr i)
              (dname d) e hncd hval with hk | hk | hk
          · exact Or.inr (Or.inr ⟨i, le_refl i, by simp only [DescList.length]; omega, hk⟩)
          · exact Or.inl hk
          · exact Or.inr (Or.inl hk)
        | tail _ _ hm2 =>
          rcases ihn tl hlen' hnctl xs t (i + 1) _ _ htl e hm2 with hk | hk | ⟨j, h1, h2, h3⟩
          · exact Or.inl hk
          · exact Or.inr (Or.inl hk)
          · refine Or.inr (Or.inr ⟨j, by omega, ?_, h3⟩)
            simp only [DescList.length]; omega
      | .ok w =>
        by_cases hw : w = xs.get i
        · have : tupleGo (.cons d tl) xs i t = tupleGo tl xs (i + 1) t := by
            simp only [tupleGo, hval, hw, if_pos]
          rw [this] at hgo
          rcases ihn tl hlen' hnctl xs t (i + 1) t' es hgo e hm with hk | hk | ⟨j, h1, h2, h3⟩
          · exact Or.inl hk
          · exact Or.inr (Or.inl hk)
          · refine Or.inr (Or.inr ⟨j, by omega, ?_, h3⟩)
            simp only [DescList.length]; omega
        · have : tupleGo (.cons d tl) xs i t = tupleGo tl xs (i + 1) (t.set i w) := by
            simp only [tupleGo, hval, hw, if_neg, ite_false]
          rw [this] at hgo
          rcases ihn tl hlen' hnctl xs (t.set i w) (i + 1) t' es hgo e hm with hk | hk | ⟨j, h1, h2, h3⟩
          · exact Or.inl hk
          · exact Or.inr (Or.inl hk)
          · refine Or.inr (Or.inr ⟨j, by omega, ?_, h3⟩)
            simp only [DescList.length]; omega

/-- Counterexample to C4 as stated: `tuple([string])` on `["a", 1, 2]` has
    two excess indices (1 and 2), but the error node carries exactly one
    child — a `never` error at key "1" — and no error at key "2". -/
theorem C4_counterexample :
    dvalidate (.tupleT (.cons .stringT .nil))
        (.vArr (.cons (.vStr "a") (.cons (.vNum 1) (.cons (.vNum 2) .nil)))) "" "[string]"
      = .err (.node (.vArr (.cons (.vStr "a") (.cons (.vNum 1) (.cons (.vNum 2) .nil))))
          "" "[string]" (.cons (.node (.vNum 1) "1" "never" .nil) .nil))
    ∧ VErrors.anyB (fun ch => ch.key == "2")
        (.cons (.node (.vNum 1) "1" "never" .nil) .nil) = false := by
  exact ⟨by decide, by decide⟩

/-- Claim C4, amended: on an array longer than the declared arity `n`,
    `tuple` always fails, and exactly one excess error is reported: a
    `never`-typed error at key `n` holding the element at index `n`,
    appended after the per-element errors (whose keys all lie below `n`,
    or are the `""`/`" "` keys of strict/tagged-union members); the
    indices beyond `n` are not individually rejected. -/
theorem C4_tuple_excess (ts : DescList) (xs : ValueList) (c dn : String)
    (hnc : noCustomList ts = true) (h : ts.length < xs.length) :
    ∃ es : VErrors,
      dvalidate (.tupleT ts) (.vArr xs) c dn
        = .err (.node (.vArr xs) c dn
            (es.append (.cons (.node (xs.get ts.length) (Nat.repr ts.length) "never" .nil) .nil)))
      ∧ ∀ e : VError, VErrors.Mem e es →
          e.key = "" ∨ e.key = " " ∨ ∃ j, j < ts.length ∧ e.key = Nat.repr j := by
  rcases hgo : tupleGo ts xs 0 xs with ⟨t0, es⟩
  refine ⟨es, ?_, ?_⟩
  · simp only [dvalidate, hgo, if_pos h]
    cases es <;> rfl
  · intro e hm
    rcases tupleGo_err_keys ts.length ts rfl hnc xs xs 0 t0 es hgo e hm with hk | hk | ⟨j, _, h2, h3⟩
    · exact Or.inl hk
    · exact Or.inr (Or.inl hk)
    · exact Or.inr (Or.inr ⟨j, by omega, h3⟩)

/-- Witness for C4 (amended): `tuple([string, number])` on `["a", 1, true]`
    (declared arity 2, length 3). -/
theorem C4_tuple_excess_witness :
    ∃ es : VErrors,
      dvalidate (.tupleT (.cons .stringT (.cons .numberT .nil)))
          (.vArr (.cons (.vStr "a") (.cons (.vNum 1) (.cons (.vBool true) .nil))))
          "" "[string, number]"
        = .err (.node (.vArr (.cons (.vStr "a") (.cons (.vNum 1) (.cons (.vBool true) .nil))))
            "" "[string, number]"
            (es.append (.cons (.node
              ((ValueList.cons (.vStr "a") (.cons (.vNum 1) (.cons (.vBool true) .nil))).get
                (DescList.cons .stringT (.cons .numberT .nil)).length)
              (Nat.repr (DescList.cons .stringT (.cons .numberT .nil)).length) "never" .nil) .nil)))
      ∧ ∀ e : VError, VErrors.Mem e es →
          e.key = "" ∨ e.key = " "
          ∨ ∃ j, j < (DescList.cons .stringT (.cons .numberT .nil)).length ∧ e.key = Nat.repr j :=
  C4_tuple_excess (.cons .stringT (.cons .numberT .nil))
    (.cons (.vStr "a") (.cons (.vNum 1) (.cons (.vBool true) .nil))) "" "[string, number]"
    (by decide) (by decide)

theorem strictExtras_nil_iff (ps : Props) (o : Value) :
    ∀ ks : List String,
      (strictExtras ps o ks = .nil ↔ ks.all (fun k => hasPropKey ps k) = true) := by
  intro ks
  induction ks with
  | nil => simp [strictExtras]
  | cons k tl ih =>
    by_cases hk : hasPropKey ps k
    · simp [strictExtras, hk, ih]
    · simp [strictExtras, hk]

theorem strictExtras_filter (ps : Props) (o : Value) :
    ∀ ks : List String,
      strictExtras ps o ks
        = VErrors.ofList ((ks.filter (fun k => ¬ hasPropKey ps k)).map
            (fun k => VError.node (getProp o k) k "never" .nil)) := by
  intro ks
  induction ks with
  | nil => rfl
  | cons k tl ih =>
    by_cases hk : hasPropKey ps k
    · simp [strictExtras, hk, List.filter_cons, ih]
    · simp [strictExtras, hk, List.filter_cons, ih, VErrors.ofList]

/-- Claim C6: `strict(props).validate` first runs the open-object
    validation (which it tags with the loose type's own name); a loose
    failure is returned unchanged; on loose success with intermediate
    result `o`, every own property of `o` outside the declared props map
    yields one error bound to the `never` type at that property's key
    (exactly the filter of `o`'s own property names); the result fails iff
    the open validation fails or at least one extra key exists, returns
    `o` unchanged otherwise, and `strict`'s encode is the open object's
    encode. -/
theorem C6_strict (ps : Props) (v : Value) (c dn : String) :
    (∀ e : VError, dvalidate (.typeT ps) v c (propsName ps) = .err e →
        dvalidate (.strictT ps) v c dn = .err e)
    ∧ (∀ o : Value, dvalidate (.typeT ps) v c (propsName ps) = .ok o →
        (strictExtras ps o (ownPropNames o) = .nil → dvalidate (.strictT ps) v c dn = .ok o)
        ∧ (∀ e0 es, strictExtras ps o (ownPropNames o) = .cons e0 es →
            dvalidate (.strictT ps) v c dn = .err (.node v "" dn (.cons e0 es))))
    ∧ (∀ o : Value, strictExtras ps o (ownPropNames o)
        = VErrors.ofList (((ownPropNames o).filter (fun k => ¬ hasPropKey ps k)).map
            (fun k => VError.node (getProp o k) k "never" .nil)))
    ∧ (∀ o : Value, (strictExtras ps o (ownPropNames o) = .nil
        ↔ ((ownPropNames o).all (fun k => hasPropKey ps k) = true)))
    ∧ (∀ w : Value, dencode (.strictT ps) w = dencode (.typeT ps) w) := by
  refine ⟨?_, ?_, fun o => strictExtras_filter ps o _, fun o => strictExtras_nil_iff ps o _, fun w => rfl⟩
  · intro e he
    by_cases hdict : dictIs v
    · rcases hgo : typeGo ps v v with ⟨o, es⟩
      cases es with
      | nil =>
        simp only [dvalidate, hdict, if_true, hgo] at he
        exact Res.noConfusion he
      | cons e1 es1 =>
        simp only [dvalidate, hdict, if_true, hgo] at he ⊢
        cases he
        rfl
    · simp only [dvalidate, hdict, if_false] at he ⊢
      simp only [Bool.false_eq_true, if_neg, ite_false] at he ⊢
      cases he
      rfl
  · intro o ho
    by_cases hdict : dictIs v
    · rcases hgo : typeGo ps v v with ⟨o', es⟩
      cases es with
      | nil =>
        simp only [dvalidate, hdict, if_true, hgo] at ho
        cases ho
        constructor
        · intro hex
          simp only [dvalidate, hdict, if_true, hgo, hex]
        · intro e0 es0 hex
          simp only [dvalidate, hdict, if_true, hgo, hex]
      | cons e1 es1 =>
        simp only [dvalidate, hdict, if_true, hgo] at ho
        exact Res.noConfusion ho
    · simp only [dvalidate, hdict] at ho
      simp only [Bool.false_eq_true, if_neg, ite_false] at ho
      exact Res.noConfusion ho

/-- Witness for C6: `strict(\x7bfoo: string\x7d)` on
    `\x7bfoo: "x", bar: 1\x7d` fails with one `never` error at key `bar`. -/
theorem C6_strict_witness :
    dvalidate (.strictT (.cons "foo" .stringT .nil))
        (.vObj (.cons "foo" (.vStr "x") (.cons "bar" (.vNum 1) .nil))) "" "S"
      = .err (.node (.vObj (.cons "foo" (.vStr "x") (.cons "bar" (.vNum 1) .nil))) "" "S"
          (.cons (.node (.vNum 1) "bar" "never" .nil) .nil)) :=
  ((C6_strict (.cons "foo" .stringT .nil)
      (.vObj (.cons "foo" (.vStr "x") (.cons "bar" (.vNum 1) .nil))) "" "S").2.1
    (.vObj (.cons "foo" (.vStr "x") (.cons "bar" (.vNum 1) .nil))) (by decide)).2
    (.node (.vNum 1) "bar" "never" .nil) .nil (by decide)

theorem tagLastIndex_lt :
    ∀ (nn : Nat) (ts : DescList), ts.length = nn →
      ∀ (tag s : String) (i : Nat), tagLastIndex tag ts s = some i → i < ts.length := by
  intro nn
  induction nn with
  | zero =>
    intro ts hlen tag s i h
    match ts, hlen with
    | .nil, _ => exact Option.noConfusion h
  | succ n ih =>
    intro ts hlen tag s i h
    match ts, hlen with
    | .cons t tl, hlen =>
      have hlen' : tl.length = n := by simp only [DescList.length] at hlen; omega
      match htl : tagLastIndex tag tl s with
      | some j =>
        simp only [tagLastIndex, htl] at h
        injection h with h2
        have := ih tl hlen' tag s j htl
        simp only [DescList.length]; omega
      | none =>
        simp only [tagLastIndex, htl] at h
        by_cases hg : getTagValue tag t = some s
        · rw [if_pos hg] at h
          injection h with h2
          simp only [DescList.length]; omega
        · rw [if_neg hg] at h
          exact Option.noConfusion h

theorem dispatchNth_eq_nthD :
    ∀ (i : Nat) (ts : DescList) (v : Value) (c : String), i < ts.length →
      dispatchNth ts i v c = dvalidate (ts.nthD i) v c (dname (ts.nthD i)) := by
  intro i
  induction i with
  | zero =>
    intro ts v c h
    match ts with
    | .nil => simp only [DescList.length] at h; omega
    | .cons t tl => rfl
  | succ n ih =>
    intro ts v c h
    match ts with
    | .nil => simp only [DescList.length] at h; omega
    | .cons t tl =>
      have : n < tl.length := by simp only [DescList.length] at h; omega
      exact ih tl v c this

/-- Claim C7: on a container input, `taggedUnion(tag, types)` either (a)
    fails with exactly one error node (at the space key, holding the
    discriminant value) carrying a single child at the discriminant field
    — one single check against the known literal set, not one failure per
    member — when the discriminant value is not a known tag string (or not
    a string at all), or (b) dispatches to exactly the one member indexed
    by the discriminant value and returns that member's `validate` result
    unchanged. -/
theorem C7_tagged_union (tag : String) (ts : DescList) (v : Value) (c dn : String)
    (hd : dictIs v = true) :
    (∀ s : String, getProp v tag = .vStr s → (tagKeys tag ts).contains s = false →
      dvalidate (.taggedU tag ts) v c dn
        = .err (.node (.vStr s) " " dn
            (.cons (.node (.vStr s) tag (keyofNameOf tag ts) .nil) .nil)))
    ∧ (∀ tv : Value, getProp v tag = tv → (∀ s : String, tv ≠ .vStr s) →
      dvalidate (.taggedU tag ts) v c dn
        = .err (.node tv " " dn (.cons (.node tv tag (keyofNameOf tag ts) .nil) .nil)))
    ∧ (∀ (s : String) (i : Nat), getProp v tag = .vStr s →
        (tagKeys tag ts).contains s = true → tagLastIndex tag ts s = some i →
      dvalidate (.taggedU tag ts) v c dn
        = dvalidate (ts.nthD i) v c (dname (ts.nthD i))) := by
  refine ⟨?_, ?_, ?_⟩
  · intro s hs hcon
    simp only [dvalidate, hd, if_true, hs, hcon]
    try rfl
  · intro tv htv hne
    cases tv <;>
      first
      | exact absurd rfl (hne _)
      | (simp only [dvalidate, hd, if_true, htv]; try rfl)
  · intro s i hs hcon hidx
    simp only [dvalidate, hd, if_true, hs, hcon, if_true, hidx, Option.getD_some]
    exact dispatchNth_eq_nthD i ts v c (tagLastIndex_lt ts.length ts rfl tag s i hidx)

/-- Witness for C7: `taggedUnion("kind", [A\x7bkind:"a"\x7d, B\x7bkind:"b"\x7d])`
    on `\x7bkind: "c"\x7d` yields exactly one error node with a single
    discriminant child; on `\x7bkind: "b"\x7d` it dispatches to `B` and
    returns `B.validate`'s result. -/
theorem C7_tagged_union_witness :
    dvalidate (.taggedU "kind" (.cons (.typeT (.cons "kind" (.literalT (.vStr "a")) .nil))
          (.cons (.typeT (.cons "kind" (.literalT (.vStr "b")) .nil)) .nil)))
        (.vObj (.cons "kind" (.vStr "c") .nil)) "" "TG"
      = .err (.node (.vStr "c") " " "TG"
          (.cons (.node (.vStr "c") "kind" "(keyof [\"a\",\"b\"])" .nil) .nil))
    ∧ dvalidate (.taggedU "kind" (.cons (.typeT (.cons "kind" (.literalT (.vStr "a")) .nil))
          (.cons (.typeT (.cons "kind" (.literalT (.vStr "b")) .nil)) .nil)))
        (.vObj (.cons "kind" (.vStr "b") .nil)) "" "TG"
      = dvalidate (.typeT (.cons "kind" (.literalT (.vStr "b")) .nil))
          (.vObj (.cons "kind" (.vStr "b") .nil)) ""
          (dname (.typeT (.cons "kind" (.literalT (.vStr "b")) .nil))) := by
  constructor
  · exact (C7_tagged_union "kind" _ (.vObj (.cons "kind" (.vStr "c") .nil)) "" "TG"
      (by decide)).1 "c" (by decide) (by decide)
  · exact (C7_tagged_union "kind" _ (.vObj (.cons "kind" (.vStr "b") .nil)) "" "TG"
      (by decide)).2.2 "b" 1 (by decide) (by decide) (by decide)

theorem propsMem_size {k : String} {d : Desc} :
    ∀ {ps : Props}, Props.Mem k d ps → sizeOf d < sizeOf ps := by
  intro ps h
  induction h with
  | head tl => rw [Props.cons.sizeOf_spec]; omega
  | tail k' d' tl _ ih => rw [Props.cons.sizeOf_spec]; omega

theorem noCustomProps_mem {k : String} {d : Desc} :
    ∀ {ps : Props}, noCustomProps ps = true → Props.Mem k d ps → noCustom d = true := by
  intro ps hps h
  induction h with
  | head tl =>
    have : (noCustom d && noCustomProps tl) = true := hps
    exact ((Bool.and_eq_true _ _).mp this).1
  | tail k' d' tl _ ih =>
    have : (noCustom d' && noCustomProps tl) = true := hps
    exact ih ((Bool.and_eq_true _ _).mp this).2

theorem disProps_mem {k : String} {d : Desc} {v : Value} :
    ∀ {ps : Props}, disProps ps v = true → Props.Mem k d ps → dis d (getProp v k) = true := by
  intro ps hps h
  induction h with
  | head tl =>
    have : (dis d (getProp v k) && disProps tl v) = true := hps
    exact ((Bool.and_eq_true _ _).mp this).1
  | tail k' d' tl _ ih =>
    have : (dis d' (getProp v k') && disProps tl v) = true := hps
    exact ih ((Bool.and_eq_true _ _).mp this).2

theorem disOptProps_mem {k : String} {d : Desc} {v : Value} :
    ∀ {ps : Props}, disOptProps ps v = true → Props.Mem k d ps →
      dis d (getProp v k) = true ∨ getProp v k = .vUndefinedV := by
  intro ps hps h
  induction h with
  | head tl =>
    have : ((dis d (getProp v k) || decide (getProp v k = .vUndefinedV)) && disOptProps tl v) = true := hps
    have h1 := ((Bool.and_eq_true _ _).mp this).1
    rcases Bool.or_eq_true_iff.mp h1 with h2 | h2
    · exact Or.inl h2
    · exact Or.inr (of_decide_eq_true h2)
  | tail k' d' tl _ ih =>
    have : ((dis d' (getProp v k') || decide (getProp v k' = .vUndefinedV)) && disOptProps tl v) = true := hps
    exact ih ((Bool.and_eq_true _ _).mp this).2

theorem vlAll_mem {p : Value → Bool} {x : Value} :
    ∀ {xs : ValueList}, ValueList.all p xs = true → VLMem x xs → p x = true := by
  intro xs hall h
  induction h with
  | head tl =>
    have : (p x && ValueList.all p tl) = true := hall
    exact ((Bool.and_eq_true _ _).mp this).1
  | tail y tl _ ih =>
    have : (p y && ValueList.all p tl) = true := hall
    exact ih ((Bool.and_eq_true _ _).mp this).2

theorem vlAppend_assoc :
    ∀ (a b c : ValueList), (a.append b).append c = a.append (b.append c) := by
  intro a
  refine ValueList.inductionOn
    (motive := fun a => ∀ b c : ValueList, (a.append b).append c = a.append (b.append c)) a ?_ ?_
  · intro b c; rfl
  · intro v tl ih b c
    show ValueList.cons v ((tl.append b).append c) = .cons v (tl.append (b.append c))
    rw [ih]

theorem typeGo_noerr :
    ∀ ps : Props, (∀ k d, Props.Mem k d ps → RetEq d) →
      ∀ (o a a' : Value), typeGo ps o a = (a', .nil) → a' = a := by
  intro ps
  refine Props.inductionOn
    (motive := fun ps => (∀ k d, Props.Mem k d ps → RetEq d) →
      ∀ (o a a' : Value), typeGo ps o a = (a', .nil) → a' = a) ps ?_ ?_
  · intro _ o a a' hgo
    cases hgo
    rfl
  · intro k d tl ih HM o a a' hgo
    match hv : dvalidate d (getProp o k) k (dname d) with
    | .err e =>
      rcases htl : typeGo tl o a with ⟨a2, es⟩
      simp only [typeGo, hv, htl] at hgo
      simp at hgo
    | .ok w =>
      have hw : w = getProp o k := HM k d (.head tl) _ _ _ _ hv
      simp only [typeGo, hv, hw, if_pos] at hgo
      exact ih (fun k' d' hm => HM k' d' (.tail k d tl hm)) o a a' hgo

theorem optGo_noerr :
    ∀ ps : Props, (∀ k d, Props.Mem k d ps → RetEq d) →
      ∀ (o a a' : Value), optGo ps o a = (a', .nil) → a' = a := by
  intro ps
  refine Props.inductionOn
    (motive := fun ps => (∀ k d, Props.Mem k d ps → RetEq d) →
      ∀ (o a a' : Value), optGo ps o a = (a', .nil) → a' = a) ps ?_ ?_
  · intro _ o a a' hgo
    cases hgo
    rfl
  · intro k d tl ih HM o a a' hgo
    match hv : dvalidate d (getProp o k) "0" (dname d) with
    | .err e0 =>
      match ho : getProp o k with
      | .vUndefinedV =>
        rw [ho] at hv
        simp only [optGo, ho, hv] at hgo
        split at hgo
        · exact ih (fun k' d' hm => HM k' d' (.tail k d tl hm)) o a a' hgo
        · next h => exact absurd trivial h
      | .vNull | .vStr _ | .vNum _ | .vBool _ | .vArr _ | .vObj _ | .vDate _ | .vFunc _ _ =>
        rw [ho] at hv
        rcases htl : optGo tl o a with ⟨a2, es⟩
        simp only [optGo, ho, hv, htl] at hgo
        simp at hgo
    | .ok w =>
      have hw : w = getProp o k := HM k d (.head tl) _ _ _ _ hv
      simp only [optGo, hv, hw, if_pos] at hgo
      exact ih (fun k' d' hm => HM k' d' (.tail k d tl hm)) o a a' hgo

theorem unionGo_inr_eq :
    ∀ ts : DescList, (∀ t, DescList.Mem t ts → RetEq t) →
      ∀ (v : Value) (i : Nat) (w : Value), unionGo ts v i = .inr w → w = v := by
  intro ts
  refine DescList.inductionOn
    (motive := fun ts => (∀ t, DescList.Mem t ts → RetEq t) →
      ∀ (v : Value) (i : Nat) (w : Value), unionGo ts v i = .inr w → w = v) ts ?_ ?_
  · intro _ v i w hgo
    exact Sum.noConfusion hgo
  · intro t tl ih HM v i w hgo
    match hv : dvalidate t v (Nat.repr i) (dname t) with
    | .ok w0 =>
      simp only [unionGo, hv] at hgo
      cases hgo
      exact HM t (.head tl) _ _ _ _ hv
    | .err e =>
      simp only [unionGo, hv] at hgo
      match hrec : unionGo tl v (i + 1) with
      | .inl es => rw [hrec] at hgo; exact Sum.noConfusion hgo
      | .inr w0 =>
        rw [hrec] at hgo
        cases hgo
        exact ih (fun t' hm => HM t' (.tail t tl hm)) v (i + 1) w hrec

theorem interGo_val_eq :
    ∀ ts : DescList, (∀ t, DescList.Mem t ts → RetEq t) →
      ∀ (a : Value) (i : Nat) (b : Value) (es : VErrors), interGo ts a i = (b, es) → b = a := by
  intro ts
  refine DescList.inductionOn
    (motive := fun ts => (∀ t, DescList.Mem t ts → RetEq t) →
      ∀ (a : Value) (i : Nat) (b : Value) (es : VErrors), interGo ts a i = (b, es) → b = a) ts ?_ ?_
  · intro _ a i b es hgo
    cases hgo
    rfl
  · intro t tl ih HM a i b es hgo
    match hv : dvalidate t a (Nat.repr i) (dname t) with
    | .ok w =>
      have hw : w = a := HM t (.head tl) _ _ _ _ hv
      simp only [interGo, hv] at hgo
      rw [hw] at hgo
      exact ih (fun t' hm => HM t' (.tail t tl hm)) a (i + 1) b es hgo
    | .err e =>
      rcases htl : interGo tl a (i + 1) with ⟨b2, es2⟩
      simp only [interGo, hv, htl] at hgo
      have hb : b2 = a := ih (fun t' hm => HM t' (.tail t tl hm)) a (i + 1) b2 es2 htl
      cases hgo
      exact hb

theorem tupleGo_noerr :
    ∀ ts : DescList, (∀ t, DescList.Mem t ts → RetEq t) →
      ∀ (xs : ValueList) (i : Nat) (t t' : ValueList), tupleGo ts xs i t = (t', .nil) → t' = t := by
  intro ts
  refine DescList.inductionOn
    (motive := fun ts => (∀ t, DescList.Mem t ts → RetEq t) →
      ∀ (xs : ValueList) (i : Nat) (t t' : ValueList), tupleGo ts xs i t = (t', .nil) → t' = t) ts ?_ ?_
  · intro _ xs i t t' hgo
    cases hgo
    rfl
  · intro d tl ih HM xs i t t' hgo
    match hv : dvalidate d (xs.get i) (Nat.repr i) (dname d) with
    | .err e =>
      rcases htl : tupleGo tl xs (i + 1) t with ⟨t2, es⟩
      simp only [tupleGo, hv, htl] at hgo
      simp at hgo
    | .ok w =>
      have hw : w = xs.get i := HM d (.head tl) _ _ _ _ hv
      simp only [tupleGo, hv, hw, if_pos] at hgo
      exact ih (fun t' hm => HM t' (.tail d tl hm)) xs (i + 1) t t' hgo

theorem vlAppend_nil : ∀ a : ValueList, a.append .nil = a := by
  intro a
  refine ValueList.inductionOn (motive := fun a => a.append .nil = a) a rfl ?_
  intro v tl ih
  show ValueList.cons v (tl.append .nil) = .cons v tl
  rw [ih]

theorem arrayRun_noerr (f : Value → Nat → Res) (hf : ∀ x i w, f x i = .ok w → w = x) :
    ∀ (xs : ValueList) (i : Nat) (done : ValueList) (fresh : Option ValueList)
      (done' : ValueList) (fresh' : Option ValueList),
      arrayRun f xs i done fresh = (done', fresh', .nil) →
      done' = done.append xs ∧ fresh' = fresh := by
  intro xs
  refine ValueList.inductionOn
    (motive := fun xs => ∀ (i : Nat) (done : ValueList) (fresh : Option ValueList)
      (done' : ValueList) (fresh' : Option ValueList),
      arrayRun f xs i done fresh = (done', fresh', .nil) →
      done' = done.append xs ∧ fresh' = fresh) xs ?_ ?_
  · intro i done fresh done' fresh' hgo
    cases hgo
    exact ⟨(vlAppend_nil done).symm, rfl⟩
  · intro x rem ih i done fresh done' fresh' hgo
    match hv : f x i with
    | .err e =>
      rcases hrec : arrayRun f rem (i + 1) (done.push x) fresh with ⟨d2, f2, es⟩
      simp only [arrayRun, hv, hrec] at hgo
      simp at hgo
    | .ok w =>
      have hw : w = x := hf x i w hv
      simp only [arrayRun, hv, hw, if_pos] at hgo
      rcases ih (i + 1) (done.push x) fresh done' fresh' hgo with ⟨h1, h2⟩
      refine ⟨?_, h2⟩
      rw [h1, ValueList.push, vlAppend_assoc]
      rfl

theorem dictGo_noerr (fd : String → Res) (fc : String → Value → Res) (o : Value)
    (hfd : ∀ k w, fd k = .ok w → w = .vStr k) (hfc : ∀ k x w, fc k x = .ok w → w = x) :
    ∀ (ks : List String) (a : VFields) (ch : Bool) (a2 : VFields) (ch2 : Bool),
      dictGo fd fc o ks a ch = (a2, ch2, .nil) → ch2 = ch := by
  intro ks
  induction ks with
  | nil =>
    intro a ch a2 ch2 hgo
    cases hgo
    rfl
  | cons k ks ih =>
    intro a ch a2 ch2 hgo
    match hdv : fd k with
    | .err de =>
      match hcv : fc k (getProp o k) with
      | .err ce =>
        rcases hrec : dictGo fd fc o ks a ch with ⟨a3, ch3, es⟩
        simp only [dictGo, hdv, hcv, hrec] at hgo
        simp at hgo
      | .ok vok =>
        rcases hrec : dictGo fd fc o ks (a.setKey k vok) (ch || decide (vok ≠ getProp o k))
          with ⟨a3, ch3, es⟩
        simp only [dictGo, hdv, hcv, hrec] at hgo
        simp at hgo
    | .ok vk =>
      have hvk : vk = .vStr k := hfd k vk hdv
      match hcv : fc k (getProp o k) with
      | .err ce =>
        rcases hrec : dictGo fd fc o ks a (ch || decide (vk ≠ .vStr k)) with ⟨a3, ch3, es⟩
        simp only [dictGo, hdv, hcv, hrec] at hgo
        simp at hgo
      | .ok vok =>
        have hvok : vok = getProp o k := hfc k _ vok hcv
        have hcond1 : (ch || decide (vk ≠ Value.vStr k)) = ch := by rw [hvk]; simp
        have hcond2 : ∀ b : Bool, (b || decide (vok ≠ getProp o k)) = b := by
          intro b; rw [hvok]; simp
        simp only [dictGo, hdv, hcv, hcond1, hcond2] at hgo
        exact ih _ _ _ _ hgo

theorem dispatchNth_ok_eq :
    ∀ (i : Nat) (ts : DescList), (∀ t, DescList.Mem t ts → RetEq t) →
      ∀ (v : Value) (c : String) (w : Value), dispatchNth ts i v c = .ok w → w = v := by
  intro i
  induction i with
  | zero =>
    intro ts HM v c w h
    match ts with
    | .nil => exact Res.noConfusion h
    | .cons t tl => exact HM t (.head tl) _ _ _ _ h
  | succ n ih =>
    intro ts HM v c w h
    match ts with
    | .nil => exact Res.noConfusion h
    | .cons t tl => exact ih tl (fun t' hm => HM t' (.tail t tl hm)) v c w h


/-- On custom-free descriptors, `validate` can only succeed with exactly
    its input value: every combinator either returns the input unchanged
    or rebuilds it from unchanged parts. -/
theorem retEq_aux : ∀ n : Nat, ∀ d : Desc, sizeOf d < n → noCustom d = true → RetEq d := by
  intro n
  induction n with
  | zero => intro d h; exact absurd h (by omega)
  | succ n ih =>
    intro d hd hnc v c dn w hv
    match d with
    | .nullT | .undefT | .stringT | .numberT | .booleanT | .arrAnyT | .dictAnyT
    | .objectT | .funcT =>
      simp only [dvalidate] at hv
      split at hv
      · cases hv; rfl
      · exact Res.noConfusion hv
    | .keyofT ks =>
      match v with
      | .vStr s =>
        simp only [dvalidate] at hv
        split at hv
        · cases hv; rfl
        · exact Res.noConfusion hv
      | .vNull | .vUndefinedV | .vNum _ | .vBool _ | .vArr _ | .vObj _ | .vDate _ | .vFunc _ _ =>
        exact Res.noConfusion hv
    | .anyT => cases hv; rfl
    | .neverT => exact Res.noConfusion hv
    | .literalT lv =>
      simp only [dvalidate] at hv
      split at hv
      · next hc => cases hv; exact hc.symm
      · exact Res.noConfusion hv
    | .refineT b p nm =>
      have hb : sizeOf b < n := by rw [Desc.refineT.sizeOf_spec] at hd; omega
      match hbv : dvalidate b v c dn with
      | .err e1 =>
        simp only [dvalidate, hbv] at hv
        exact Res.noConfusion hv
      | .ok w0 =>
        simp only [dvalidate, hbv] at hv
        split at hv
        · cases hv; exact ih b hb hnc v c dn w hbv
        · exact Res.noConfusion hv
    | .readonlyT t =>
      have hb : sizeOf t < n := by rw [Desc.readonlyT.sizeOf_spec] at hd; omega
      exact ih t hb hnc v c dn w hv
    | .arrayT el =>
      have hel : sizeOf el < n := by rw [Desc.arrayT.sizeOf_spec] at hd; omega
      match v with
      | .vArr xs =>
        rcases harr : arrayRun (fun x i => dvalidate el x (Nat.repr i) (dname el)) xs 0 .nil none
          with ⟨done, fresh, es⟩
        cases es with
        | nil =>
          simp only [dvalidate, harr] at hv
          rcases arrayRun_noerr (fun x i => dvalidate el x (Nat.repr i) (dname el))
            (fun x i w h => ih el hel hnc x (Nat.repr i) (dname el) w h) xs 0 .nil none done fresh harr
            with ⟨h1, h2⟩
          subst h1; subst h2
          cases hv
          rfl
        | cons e1 es1 =>
          simp only [dvalidate, harr] at hv
          exact Res.noConfusion hv
      | .vNull | .vUndefinedV | .vStr _ | .vNum _ | .vBool _ | .vObj _ | .vDate _ | .vFunc _ _ =>
        exact Res.noConfusion hv
    | .roArrayT el =>
      have hel : sizeOf el < n := by rw [Desc.roArrayT.sizeOf_spec] at hd; omega
      match v with
      | .vArr xs =>
        rcases harr : arrayRun (fun x i => dvalidate el x (Nat.repr i) (dname el)) xs 0 .nil none
          with ⟨done, fresh, es⟩
        cases es with
        | nil =>
          simp only [dvalidate, harr] at hv
          rcases arrayRun_noerr (fun x i => dvalidate el x (Nat.repr i) (dname el))
            (fun x i w h => ih el hel hnc x (Nat.repr i) (dname el) w h) xs 0 .nil none done fresh harr
            with ⟨h1, h2⟩
          subst h1; subst h2
          cases hv
          rfl
        | cons e1 es1 =>
          simp only [dvalidate, harr] at hv
          exact Res.noConfusion hv
      | .vNull | .vUndefinedV | .vStr _ | .vNum _ | .vBool _ | .vObj _ | .vDate _ | .vFunc _ _ =>
        exact Res.noConfusion hv
    | .typeT ps =>
      have hps : sizeOf ps < n := by rw [Desc.typeT.sizeOf_spec] at hd; omega
      have HM : ∀ k d0, Props.Mem k d0 ps → RetEq d0 := fun k d0 hm =>
        ih d0 (lt_trans (propsMem_size hm) hps) (noCustomProps_mem hnc hm)
      by_cases hdict : dictIs v = true
      · rcases hgo : typeGo ps v v with ⟨a, es⟩
        cases es with
        | nil =>
          simp only [dvalidate, hdict, if_true, hgo] at hv
          cases hv
          exact typeGo_noerr ps HM v v w hgo
        | cons e1 es1 =>
          simp only [dvalidate, hdict, if_true, hgo] at hv
          exact Res.noConfusion hv
      · simp only [dvalidate, hdict] at hv
        simp only [Bool.false_eq_true, if_neg, ite_false] at hv
        exact Res.noConfusion hv
    | .optionalT ps =>
      have hps : sizeOf ps < n := by rw [Desc.optionalT.sizeOf_spec] at hd; omega
      have HM : ∀ k d0, Props.Mem k d0 ps → RetEq d0 := fun k d0 hm =>
        ih d0 (lt_trans (propsMem_size hm) hps) (noCustomProps_mem hnc hm)
      by_cases hdict : dictIs v = true
      · rcases hgo : optGo ps v v with ⟨a, es⟩
        cases es with
        | nil =>
          simp only [dvalidate, hdict, if_true, hgo] at hv
          cases hv
          exact optGo_noerr ps HM v v w hgo
        | cons e1 es1 =>
          simp only [dvalidate, hdict, if_true, hgo] at hv
          exact Res.noConfusion hv
      · simp only [dvalidate, hdict] at hv
        simp only [Bool.false_eq_true, if_neg, ite_false] at hv
        exact Res.noConfusion hv
    | .dictT dom cod =>
      have hdom : sizeOf dom < n := by rw [Desc.dictT.sizeOf_spec] at hd; omega
      have hcod : sizeOf cod < n := by rw [Desc.dictT.sizeOf_spec] at hd; omega
      have hncd : noCustom dom = true := ((Bool.and_eq_true _ _).mp hnc).1
      have hncc : noCustom cod = true := ((Bool.and_eq_true _ _).mp hnc).2
      by_cases hdict : dictIs v = true
      · rcases hgo : dictGo (fun k => dvalidate dom (.vStr k) k (dname dom))
            (fun k okv => dvalidate cod okv k (dname cod)) v (jsKeys v) .nil false
          with ⟨a, ch, es⟩
        cases es with
        | nil =>
          simp only [dvalidate, hdict, if_true, hgo] at hv
          have hch : ch = false :=
            dictGo_noerr (fun k => dvalidate dom (.vStr k) k (dname dom))
              (fun k okv => dvalidate cod okv k (dname cod)) v
              (fun k w h => ih dom hdom hncd (.vStr k) k (dname dom) w h)
              (fun k x w h => ih cod hcod hncc x k (dname cod) w h)
              (jsKeys v) .nil false a ch hgo
          subst hch
          simp only [Bool.false_eq_true, if_neg, ite_false] at hv
          cases hv
          rfl
        | cons e1 es1 =>
          simp only [dvalidate, hdict, if_true, hgo] at hv
          exact Res.noConfusion hv
      · simp only [dvalidate, hdict] at hv
        simp only [Bool.false_eq_true, if_neg, ite_false] at hv
        exact Res.noConfusion hv
    | .unionT ts =>
      have hts : sizeOf ts < n := by rw [Desc.unionT.sizeOf_spec] at hd; omega
      have HM : ∀ t, DescList.Mem t ts → RetEq t := fun t hm =>
        ih t (lt_trans (dlMem_size hm) hts) (noCustomList_mem hnc hm)
      match hgo : unionGo ts v 0 with
      | .inr w0 =>
        simp only [dvalidate, hgo] at hv
        cases hv
        exact unionGo_inr_eq ts HM v 0 w hgo
      | .inl es =>
        simp only [dvalidate, hgo] at hv
        exact Res.noConfusion hv
    | .interT ts =>
      have hts : sizeOf ts < n := by rw [Desc.interT.sizeOf_spec] at hd; omega
      have HM : ∀ t, DescList.Mem t ts → RetEq t := fun t hm =>
        ih t (lt_trans (dlMem_size hm) hts) (noCustomList_mem hnc hm)
      rcases hgo : interGo ts v 0 with ⟨b, es⟩
      cases es with
      | nil =>
        simp only [dvalidate, hgo] at hv
        cases hv
        exact interGo_val_eq ts HM v 0 w .nil hgo
      | cons e1 es1 =>
        simp only [dvalidate, hgo] at hv
        exact Res.noConfusion hv
    | .tupleT ts =>
      have hts : sizeOf ts < n := by rw [Desc.tupleT.sizeOf_spec] at hd; omega
      have HM : ∀ t, DescList.Mem t ts → RetEq t := fun t hm =>
        ih t (lt_trans (dlMem_size hm) hts) (noCustomList_mem hnc hm)
      match v with
      | .vArr xs =>
        rcases hgo : tupleGo ts xs 0 xs with ⟨t, es⟩
        by_cases hlen : ts.length < xs.length
        · simp only [dvalidate, hgo, if_pos hlen] at hv
          cases es with
          | nil => exact Res.noConfusion hv
          | cons e1 es1 => exact Res.noConfusion hv
        · simp only [dvalidate, hgo, if_neg hlen] at hv
          cases es with
          | nil =>
            cases hv
            exact congrArg Value.vArr (tupleGo_noerr ts HM xs 0 xs t hgo)
          | cons e1 es1 => exact Res.noConfusion hv
      | .vNull | .vUndefinedV | .vStr _ | .vNum _ | .vBool _ | .vObj _ | .vDate _ | .vFunc _ _ =>
        exact Res.noConfusion hv
    | .strictT ps =>
      have hps : sizeOf ps < n := by rw [Desc.strictT.sizeOf_spec] at hd; omega
      have HM : ∀ k d0, Props.Mem k d0 ps → RetEq d0 := fun k d0 hm =>
        ih d0 (lt_trans (propsMem_size hm) hps) (noCustomProps_mem hnc hm)
      by_cases hdict : dictIs v = true
      · rcases hgo : typeGo ps v v with ⟨o, es⟩
        cases es with
        | nil =>
          simp only [dvalidate, hdict, if_true, hgo] at hv
          match hex : strictExtras ps o (ownPropNames o) with
          | .nil =>
            rw [hex] at hv
            cases hv
            exact typeGo_noerr ps HM v v w hgo
          | .cons e0 es0 =>
            rw [hex] at hv
            exact Res.noConfusion hv
        | cons e1 es1 =>
          simp only [dvalidate, hdict, if_true, hgo] at hv
          exact Res.noConfusion hv
      · simp only [dvalidate, hdict] at hv
        simp only [Bool.false_eq_true, if_neg, ite_false] at hv
        exact Res.noConfusion hv
    | .taggedU tag ts =>
      have hts : sizeOf ts < n := by rw [Desc.taggedU.sizeOf_spec] at hd; omega
      have HM : ∀ t, DescList.Mem t ts → RetEq t := fun t hm =>
        ih t (lt_trans (dlMem_size hm) hts) (noCustomList_mem hnc hm)
      by_cases hdict : dictIs v = true
      · match hpv : getProp v tag with
        | .vStr s =>
          by_cases hcon : (tagKeys tag ts).contains s = true
          · simp only [dvalidate, hdict, if_true, hpv, hcon] at hv
            exact dispatchNth_ok_eq _ ts HM v c w hv
          · simp only [dvalidate, hdict, if_true, hpv] at hv
            rw [Bool.not_eq_true] at hcon
            rw [hcon] at hv
            simp only [Bool.false_eq_true, if_neg, ite_false] at hv
            exact Res.noConfusion hv
        | .vNull | .vUndefinedV | .vNum _ | .vBool _ | .vArr _ | .vObj _ | .vDate _ | .vFunc _ _ =>
          simp only [dvalidate, hdict, if_true, hpv] at hv
          exact Res.noConfusion hv
      · simp only [dvalidate, hdict] at hv
        simp only [Bool.false_eq_true, if_neg, ite_false] at hv
        exact Res.noConfusion hv
    | .custom nm cis cval cenc cid =>
      exact Bool.noConfusion hnc

/-- Claim C8: when a refinement's base validates the raw input to a
    (possibly transformed) value `w` and the predicate rejects `w`, the
    refinement fails with a childless error node recording `w` — the
    validated value — not the raw input. -/
theorem C8_refinement_value (b : Desc) (p : Value → Bool) (nm : String)
    (v w : Value) (c dn : String)
    (hb : dvalidate b v c dn = .ok w) (hp : p w = false) :
    dvalidate (.refineT b p nm) v c dn = .err (.node w c dn .nil) := by
  simp only [dvalidate, hb, hp]
  try rfl

/-- Witness for C8: refining `DateFromNumber` with an always-false
    predicate and decoding `3` records the transformed `Date(3)`, not the
    raw input `3`, in the error. -/
theorem C8_refinement_value_witness :
    dvalidate (.refineT dateFromNumber (fun _ => false) "R") (.vNum 3) "" "R"
      = .err (.node (.vDate 3) "" "R" .nil) :=
  C8_refinement_value dateFromNumber (fun _ => false) "R" (.vNum 3) (.vDate 3) "" "R"
    (by decide) rfl

/-- Claim C5 (code bug record): `array(DateFromNumber).decode([0])`
    transforms the element, yet the element loop's rebuild test compares
    the accumulator against the element's *validated value*
    (`a === validation`) instead of against the input array (`a === xs`),
    so no copy is ever taken: the loop keeps `a` aliased to the input
    array (`fresh = none`), writes the transformed element through the
    alias — mutating the input in place to `[Date(0)]` — and returns the
    original (now mutated) array reference. -/
theorem C5_array_mutates_input :
    arrayRun (fun x i => dvalidate dateFromNumber x (Nat.repr i) (dname dateFromNumber))
        (.cons (.vNum 0) .nil) 0 .nil none
      = (.cons (.vDate 0) .nil, none, .nil)
    ∧ dvalidate (.arrayT dateFromNumber) (.vArr (.cons (.vNum 0) .nil)) "" "Array<DateFromNumber>"
      = .ok (.vArr (.cons (.vDate 0) .nil)) := by
  exact ⟨by decide, by decide⟩

/-- Claim C10: the container guard `AnyDictionaryType.is` accepts exactly
    the non-null values of JS `object` kind — arrays included — so
    `Dictionary.decode` of any array succeeds returning that same array,
    and the object-like combinators (here `type(\x7b\x7d)` and
    `partial(\x7bfoo: string\x7d)`) accept array inputs as key-value
    containers instead of rejecting them at the container check. -/
theorem C10_dictionary_guard :
    (∀ v : Value, dictIs v = true ↔ (typeofStr v = "object" ∧ v ≠ .vNull))
    ∧ (∀ xs : ValueList, dictIs (.vArr xs) = true)
    ∧ (∀ xs : ValueList, ddecode .dictAnyT (.vArr xs) = .ok (.vArr xs))
    ∧ (∀ (xs : ValueList) (c dn : String),
        dvalidate (.typeT .nil) (.vArr xs) c dn = .ok (.vArr xs))
    ∧ (∀ (xs : ValueList) (c dn : String),
        dvalidate (.optionalT (.cons "foo" .stringT .nil)) (.vArr xs) c dn = .ok (.vArr xs)) := by
  refine ⟨?_, fun xs => rfl, fun xs => rfl, fun xs c dn => rfl, ?_⟩
  · intro v
    cases v <;> simp [dictIs, typeofStr]
  · intro xs c dn
    have hprop : getProp (.vArr xs) "foo" = .vUndefinedV := by
      simp [getProp, parseIdx]
    simp only [dvalidate, optGo, hprop]
    rfl

theorem typeGo_allok :
    ∀ ps : Props, (∀ k d, Props.Mem k d ps → IsOk d) →
      ∀ o : Value, disProps ps o = true → ∀ a : Value, typeGo ps o a = (a, .nil) := by
  intro ps
  refine Props.inductionOn
    (motive := fun ps => (∀ k d, Props.Mem k d ps → IsOk d) →
      ∀ o : Value, disProps ps o = true → ∀ a : Value, typeGo ps o a = (a, .nil)) ps ?_ ?_
  · intro _ o _ a; rfl
  · intro k d tl ih HM o hdis a
    have hd1 : dis d (getProp o k) = true := ((Bool.and_eq_true _ _).mp hdis).1
    have htl : disProps tl o = true := ((Bool.and_eq_true _ _).mp hdis).2
    have hok : dvalidate d (getProp o k) k (dname d) = .ok (getProp o k) :=
      HM k d (.head tl) _ hd1 _ _
    simp only [typeGo, hok, if_pos]
    exact ih (fun k' d' hm => HM k' d' (.tail k d tl hm)) o htl a

theorem optGo_allok :
    ∀ ps : Props, (∀ k d, Props.Mem k d ps → RetEq d) → (∀ k d, Props.Mem k d ps → IsOk d) →
      ∀ o : Value, disOptProps ps o = true → ∀ a : Value, optGo ps o a = (a, .nil) := by
  intro ps
  refine Props.inductionOn
    (motive := fun ps => (∀ k d, Props.Mem k d ps → RetEq d) → (∀ k d, Props.Mem k d ps → IsOk d) →
      ∀ o : Value, disOptProps ps o = true → ∀ a : Value, optGo ps o a = (a, .nil)) ps ?_ ?_
  · intro _ _ o _ a; rfl
  · intro k d tl ih HM1 HM2 o hdis a
    have hd1 : (dis d (getProp o k) || decide (getProp o k = .vUndefinedV)) = true :=
      ((Bool.and_eq_true _ _).mp hdis).1
    have htl : disOptProps tl o = true := ((Bool.and_eq_true _ _).mp hdis).2
    have hrec := ih (fun k' d' hm => HM1 k' d' (.tail k d tl hm))
      (fun k' d' hm => HM2 k' d' (.tail k d tl hm)) o htl a
    rcases Bool.or_eq_true_iff.mp hd1 with h1 | h1
    · have hok : dvalidate d (getProp o k) "0" (dname d) = .ok (getProp o k) :=
        HM2 k d (.head tl) _ h1 _ _
      simp only [optGo, hok, if_pos]
      exact hrec
    · have hu : getProp o k = .vUndefinedV := of_decide_eq_true h1
      match hv0 : dvalidate d (getProp o k) "0" (dname d) with
      | .ok w =>
        have hw : w = getProp o k := HM1 k d (.head tl) _ _ _ _ hv0
        simp only [optGo, hv0, hw, if_pos]
        exact hrec
      | .err e0 =>
        rw [hu] at hv0
        simp only [optGo, hu, hv0, if_pos]
        exact hrec

theorem unionGo_first :
    ∀ ts : DescList, (∀ t, DescList.Mem t ts → RetEq t) → (∀ t, DescList.Mem t ts → IsOk t) →
      ∀ v : Value, disAny ts v = true → ∀ i : Nat, unionGo ts v i = .inr v := by
  intro ts
  refine DescList.inductionOn
    (motive := fun ts => (∀ t, DescList.Mem t ts → RetEq t) → (∀ t, DescList.Mem t ts → IsOk t) →
      ∀ v : Value, disAny ts v = true → ∀ i : Nat, unionGo ts v i = .inr v) ts ?_ ?_
  · intro _ _ v hdis
    exact absurd hdis (by simp [disAny])
  · intro t tl ih HM1 HM2 v hdis i
    by_cases h1 : dis t v = true
    · have hok : dvalidate t v (Nat.repr i) (dname t) = .ok v := HM2 t (.head tl) v h1 _ _
      simp only [unionGo, hok]
    · have htl : disAny tl v = true := by
        have : (dis t v || disAny tl v) = true := hdis
        rcases Bool.or_eq_true_iff.mp this with h | h
        · exact absurd h h1
        · exact h
      match hv0 : dvalidate t v (Nat.repr i) (dname t) with
      | .ok w =>
        have hw : w = v := HM1 t (.head tl) _ _ _ _ hv0
        simp only [unionGo, hv0, hw]
      | .err e =>
        have hrec := ih (fun t' hm => HM1 t' (.tail t tl hm))
          (fun t' hm => HM2 t' (.tail t tl hm)) v htl (i + 1)
        simp only [unionGo, hv0, hrec]

theorem interGo_allok :
    ∀ ts : DescList, (∀ t, DescList.Mem t ts → IsOk t) →
      ∀ v : Value, disAll ts v = true → ∀ i : Nat, interGo ts v i = (v, .nil) := by
  intro ts
  refine DescList.inductionOn
    (motive := fun ts => (∀ t, DescList.Mem t ts → IsOk t) →
      ∀ v : Value, disAll ts v = true → ∀ i : Nat, interGo ts v i = (v, .nil)) ts ?_ ?_
  · intro _ v _ i; rfl
  · intro t tl ih HM v hdis i
    have h1 : dis t v = true := ((Bool.and_eq_true _ _).mp hdis).1
    have htl : disAll tl v = true := ((Bool.and_eq_true _ _).mp hdis).2
    have hok : dvalidate t v (Nat.repr i) (dname t) = .ok v := HM t (.head tl) v h1 _ _
    simp only [interGo, hok]
    exact ih (fun t' hm => HM t' (.tail t tl hm)) v htl (i + 1)

theorem disTuple_nth :
    ∀ ts : DescList, ∀ xs : ValueList, disTuple ts xs = true →
      ∀ j : Nat, j < ts.length → dis (ts.nthD j) (xs.get j) = true := by
  intro ts
  refine DescList.inductionOn
    (motive := fun ts => ∀ xs : ValueList, disTuple ts xs = true →
      ∀ j : Nat, j < ts.length → dis (ts.nthD j) (xs.get j) = true) ts ?_ ?_
  · intro xs _ j hj
    simp only [DescList.length] at hj
    omega
  · intro d tl ih xs hdis j hj
    match xs with
    | .nil =>
      have h1 : dis d .vUndefinedV = true := ((Bool.and_eq_true _ _).mp hdis).1
      have htl : disTuple tl .nil = true := ((Bool.and_eq_true _ _).mp hdis).2
      match j with
      | 0 => exact h1
      | jj + 1 =>
        have : jj < tl.length := by simp only [DescList.length] at hj; omega
        have := ih .nil htl jj this
        simpa [ValueList.get] using this
    | .cons x rest =>
      have h1 : dis d x = true := ((Bool.and_eq_true _ _).mp hdis).1
      have htl : disTuple tl rest = true := ((Bool.and_eq_true _ _).mp hdis).2
      match j with
      | 0 => exact h1
      | jj + 1 =>
        have : jj < tl.length := by simp only [DescList.length] at hj; omega
        exact ih rest htl jj this

theorem tupleGo_allok :
    ∀ ts : DescList, (∀ t, DescList.Mem t ts → IsOk t) →
      ∀ (xs : ValueList) (i : Nat),
        (∀ j : Nat, j < ts.length → dis (ts.nthD j) (xs.get (i + j)) = true) →
        ∀ t : ValueList, tupleGo ts xs i t = (t, .nil) := by
  intro ts
  refine DescList.inductionOn
    (motive := fun ts => (∀ t, DescList.Mem t ts → IsOk t) →
      ∀ (xs : ValueList) (i : Nat),
        (∀ j : Nat, j < ts.length → dis (ts.nthD j) (xs.get (i + j)) = true) →
        ∀ t : ValueList, tupleGo ts xs i t = (t, .nil)) ts ?_ ?_
  · intro _ xs i _ t; rfl
  · intro d tl ih HM xs i hdis t
    have h0 : dis d (xs.get i) = true := by
      have := hdis 0 (by simp only [DescList.length]; omega)
      simpa [DescList.nthD] using this
    have hok : dvalidate d (xs.get i) (Nat.repr i) (dname d) = .ok (xs.get i) :=
      HM d (.head tl) _ h0 _ _
    simp only [tupleGo, hok, if_pos]
    refine ih (fun t' hm => HM t' (.tail d tl hm)) xs (i + 1) ?_ t
    intro j hj
    have := hdis (j + 1) (by simp only [DescList.length]; omega)
    have harith : i + (j + 1) = (i + 1) + j := by omega
    rw [harith] at this
    simpa [DescList.nthD] using this

theorem arrayRun_allok (f : Value → Nat → Res) :
    ∀ rem : ValueList, (∀ x, VLMem x rem → ∀ i, f x i = .ok x) →
      ∀ (i : Nat) (done : ValueList) (fresh : Option ValueList),
        arrayRun f rem i done fresh = (done.append rem, fresh, .nil) := by
  intro rem
  refine ValueList.inductionOn
    (motive := fun rem => (∀ x, VLMem x rem → ∀ i, f x i = .ok x) →
      ∀ (i : Nat) (done : ValueList) (fresh : Option ValueList),
        arrayRun f rem i done fresh = (done.append rem, fresh, .nil)) rem ?_ ?_
  · intro _ i done fresh
    show (done, fresh, VErrors.nil) = (done.append .nil, fresh, .nil)
    rw [vlAppend_nil]
  · intro x rest ih hok i done fresh
    have hx : f x i = .ok x := hok x (.head rest) i
    simp only [arrayRun, hx, if_pos]
    rw [ih (fun y hm j => hok y (.tail x rest hm) j) (i + 1) (done.push x) fresh]
    rw [ValueList.push, vlAppend_assoc]
    rfl

theorem dictGo_allok (fd : String → Res) (fc : String → Value → Res) (o : Value) :
    ∀ ks : List String,
      (∀ k, k ∈ ks → fd k = .ok (.vStr k)) →
      (∀ k, k ∈ ks → fc k (getProp o k) = .ok (getProp o k)) →
      ∀ (a : VFields) (ch : Bool), ∃ a2 : VFields, dictGo fd fc o ks a ch = (a2, ch, .nil) := by
  intro ks
  induction ks with
  | nil =>
    intro _ _ a ch
    exact ⟨a, rfl⟩
  | cons k ks ih =>
    intro hfd hfc a ch
    have hd1 : fd k = .ok (.vStr k) := hfd k (List.mem_cons_self k ks)
    have hc1 : fc k (getProp o k) = .ok (getProp o k) := hfc k (List.mem_cons_self k ks)
    have hcond1 : (ch || decide ((Value.vStr k) ≠ Value.vStr k)) = ch := by simp
    have hcond2 : ∀ b : Bool, (b || decide (getProp o k ≠ getProp o k)) = b := by
      intro b; simp
    rcases ih (fun k' hm => hfd k' (List.mem_cons_of_mem k hm))
        (fun k' hm => hfc k' (List.mem_cons_of_mem k hm))
        (a.setKey (jsCoerceString (Value.vStr k)) (getProp o k)) ch with ⟨a2, hrec⟩
    refine ⟨a2, ?_⟩
    simp only [dictGo, hd1, hc1, hcond1, hcond2, hrec]

theorem dispatchNth_dis :
    ∀ (i : Nat) (ts : DescList), (∀ t, DescList.Mem t ts → IsOk t) →
      ∀ v : Value, disNth ts i v = true → ∀ c : String, dispatchNth ts i v c = .ok v := by
  intro i
  induction i with
  | zero =>
    intro ts HM v hdis c
    match ts with
    | .nil => exact Bool.noConfusion hdis
    | .cons t tl => exact HM t (.head tl) v hdis _ _
  | succ n ih =>
    intro ts HM v hdis c
    match ts with
    | .nil => exact Bool.noConfusion hdis
    | .cons t tl => exact ih tl (fun t' hm => HM t' (.tail t tl hm)) v hdis c

theorem dedupFirst_mem {x : String} :
    ∀ l : List String, x ∈ l → x ∈ dedupFirst l := by
  intro l
  induction l with
  | nil => intro h; cases h
  | cons s tl ih =>
    intro h
    rcases List.mem_cons.mp h with h1 | h1
    · subst h1; exact List.mem_cons_self _ _
    · by_cases hx : x = s
      · subst hx; exact List.mem_cons_self _ _
      · refine List.mem_cons_of_mem _ ?_
        rw [List.mem_filter]
        exact ⟨ih h1, by simp [hx]⟩

theorem collectTagVals_of_lastIndex {tag s : String} :
    ∀ (ts : DescList) (i : Nat), tagLastIndex tag ts s = some i → s ∈ collectTagVals tag ts := by
  intro ts
  refine DescList.inductionOn
    (motive := fun ts => ∀ i : Nat, tagLastIndex tag ts s = some i → s ∈ collectTagVals tag ts) ts ?_ ?_
  · intro i h
    exact Option.noConfusion h
  · intro t tl ih i h
    match htl : tagLastIndex tag tl s with
    | some j =>
      have hmem := ih j htl
      match hg : getTagValue tag t with
      | some x =>
        simp only [collectTagVals, hg]
        exact List.mem_cons_of_mem _ hmem
      | none =>
        simp only [collectTagVals, hg]
        exact hmem
    | none =>
      simp only [tagLastIndex, htl] at h
      by_cases hg : getTagValue tag t = some s
      · simp only [collectTagVals, hg]
        exact List.mem_cons_self _ _
      · rw [if_neg hg] at h
        exact Option.noConfusion h

theorem tagKeys_contains_of_lastIndex {tag s : String} {ts : DescList} {i : Nat}
    (h : tagLastIndex tag ts s = some i) : (tagKeys tag ts).contains s = true :=
  List.elem_eq_true_of_mem (dedupFirst_mem _ (collectTagVals_of_lastIndex ts i h))


/-- On custom-free descriptors, `is v = true` implies `validate` succeeds
    and returns `v` itself. -/
theorem isOk_aux : ∀ n : Nat, ∀ d : Desc, sizeOf d < n → noCustom d = true → IsOk d := by
  intro n
  induction n with
  | zero => intro d h; exact absurd h (by omega)
  | succ n ih =>
    intro d hd hnc v hdis c dn
    match d with
    | .nullT | .undefT | .stringT | .numberT | .booleanT =>
      simp only [dis] at hdis
      simp only [dvalidate, if_pos (of_decide_eq_true hdis)]
    | .anyT => rfl
    | .neverT => exact Bool.noConfusion hdis
    | .arrAnyT =>
      simp only [dis] at hdis
      simp only [dvalidate, hdis, if_true]
    | .dictAnyT | .objectT =>
      simp only [dis] at hdis
      simp only [dvalidate, hdis, if_true]
    | .funcT =>
      simp only [dis] at hdis
      simp only [dvalidate, if_pos (of_decide_eq_true hdis)]
    | .literalT lv =>
      simp only [dis] at hdis
      have hv : v = lv := of_decide_eq_true hdis
      subst hv
      simp [dvalidate]
    | .keyofT ks =>
      match v with
      | .vStr s =>
        simp only [dis] at hdis
        simp only [dvalidate, hdis, if_true]
      | .vNull | .vUndefinedV | .vNum _ | .vBool _ | .vArr _ | .vObj _ | .vDate _ | .vFunc _ _ =>
        exact Bool.noConfusion hdis
    | .refineT b p nm =>
      have hb : sizeOf b < n := by rw [Desc.refineT.sizeOf_spec] at hd; omega
      have h1 : dis b v = true := ((Bool.and_eq_true _ _).mp hdis).1
      have h2 : p v = true := ((Bool.and_eq_true _ _).mp hdis).2
      have hok : dvalidate b v c dn = .ok v := ih b hb hnc v h1 c dn
      simp only [dvalidate, hok, h2, if_true]
    | .readonlyT t =>
      have hb : sizeOf t < n := by rw [Desc.readonlyT.sizeOf_spec] at hd; omega
      exact ih t hb hnc v hdis c dn
    | .arrayT el =>
      have hel : sizeOf el < n := by rw [Desc.arrayT.sizeOf_spec] at hd; omega
      match v with
      | .vArr xs =>
        have hrun := arrayRun_allok (fun x i => dvalidate el x (Nat.repr i) (dname el)) xs
          (fun x hm i => ih el hel hnc x (vlAll_mem hdis hm) (Nat.repr i) (dname el)) 0 .nil none
        simp only [dvalidate, hrun]
        rfl
      | .vNull | .vUndefinedV | .vStr _ | .vNum _ | .vBool _ | .vObj _ | .vDate _ | .vFunc _ _ =>
        exact Bool.noConfusion hdis
    | .roArrayT el =>
      have hel : sizeOf el < n := by rw [Desc.roArrayT.sizeOf_spec] at hd; omega
      match v with
      | .vArr xs =>
        have hrun := arrayRun_allok (fun x i => dvalidate el x (Nat.repr i) (dname el)) xs
          (fun x hm i => ih el hel hnc x (vlAll_mem hdis hm) (Nat.repr i) (dname el)) 0 .nil none
        simp only [dvalidate, hrun]
        rfl
      | .vNull | .vUndefinedV | .vStr _ | .vNum _ | .vBool _ | .vObj _ | .vDate _ | .vFunc _ _ =>
        exact Bool.noConfusion hdis
    | .typeT ps =>
      have hps : sizeOf ps < n := by rw [Desc.typeT.sizeOf_spec] at hd; omega
      have HM : ∀ k d0, Props.Mem k d0 ps → IsOk d0 := fun k d0 hm =>
        ih d0 (lt_trans (propsMem_size hm) hps) (noCustomProps_mem hnc hm)
      have hdict : dictIs v = true := ((Bool.and_eq_true _ _).mp hdis).1
      have hp : disProps ps v = true := ((Bool.and_eq_true _ _).mp hdis).2
      simp only [dvalidate, hdict, if_true, typeGo_allok ps HM v hp v]
    | .optionalT ps =>
      have hps : sizeOf ps < n := by rw [Desc.optionalT.sizeOf_spec] at hd; omega
      have HM1 : ∀ k d0, Props.Mem k d0 ps → RetEq d0 := fun k d0 hm =>
        retEq_aux n d0 (lt_trans (propsMem_size hm) hps) (noCustomProps_mem hnc hm)
      have HM2 : ∀ k d0, Props.Mem k d0 ps → IsOk d0 := fun k d0 hm =>
        ih d0 (lt_trans (propsMem_size hm) hps) (noCustomProps_mem hnc hm)
      have hdict : dictIs v = true := ((Bool.and_eq_true _ _).mp hdis).1
      have hp : disOptProps ps v = true := ((Bool.and_eq_true _ _).mp hdis).2
      simp only [dvalidate, hdict, if_true, optGo_allok ps HM1 HM2 v hp v]
    | .dictT dom cod =>
      have hdom : sizeOf dom < n := by rw [Desc.dictT.sizeOf_spec] at hd; omega
      have hcod : sizeOf cod < n := by rw [Desc.dictT.sizeOf_spec] at hd; omega
      have hncd : noCustom dom = true := ((Bool.and_eq_true _ _).mp hnc).1
      have hncc : noCustom cod = true := ((Bool.and_eq_true _ _).mp hnc).2
      have hdict : dictIs v = true := ((Bool.and_eq_true _ _).mp hdis).1
      have hall : (jsKeys v).all (fun k => dis dom (.vStr k) && dis cod (getProp v k)) = true :=
        ((Bool.and_eq_true _ _).mp hdis).2
      rw [List.all_eq_true] at hall
      rcases dictGo_allok (fun k => dvalidate dom (.vStr k) k (dname dom))
          (fun k okv => dvalidate cod okv k (dname cod)) v (jsKeys v)
          (fun k hm => ih dom hdom hncd (.vStr k)
            ((Bool.and_eq_true _ _).mp (hall k hm) |>.1) k (dname dom))
          (fun k hm => ih cod hcod hncc (getProp v k)
            ((Bool.and_eq_true _ _).mp (hall k hm) |>.2) k (dname cod))
          .nil false with ⟨a2, hrun⟩
      simp only [dvalidate, hdict, if_true, hrun]
      simp
    | .unionT ts =>
      have hts : sizeOf ts < n := by rw [Desc.unionT.sizeOf_spec] at hd; omega
      have HM1 : ∀ t, DescList.Mem t ts → RetEq t := fun t hm =>
        retEq_aux n t (lt_trans (dlMem_size hm) hts) (noCustomList_mem hnc hm)
      have HM2 : ∀ t, DescList.Mem t ts → IsOk t := fun t hm =>
        ih t (lt_trans (dlMem_size hm) hts) (noCustomList_mem hnc hm)
      simp only [dvalidate, unionGo_first ts HM1 HM2 v hdis 0]
    | .interT ts =>
      have hts : sizeOf ts < n := by rw [Desc.interT.sizeOf_spec] at hd; omega
      have HM : ∀ t, DescList.Mem t ts → IsOk t := fun t hm =>
        ih t (lt_trans (dlMem_size hm) hts) (noCustomList_mem hnc hm)
      simp only [dvalidate, interGo_allok ts HM v hdis 0]
    | .tupleT ts =>
      have hts : sizeOf ts < n := by rw [Desc.tupleT.sizeOf_spec] at hd; omega
      have HM : ∀ t, DescList.Mem t ts → IsOk t := fun t hm =>
        ih t (lt_trans (dlMem_size hm) hts) (noCustomList_mem hnc hm)
      match v with
      | .vArr xs =>
        have hlen : xs.length = ts.length :=
          of_decide_eq_true ((Bool.and_eq_true _ _).mp hdis).1
        have htup : disTuple ts xs = true := ((Bool.and_eq_true _ _).mp hdis).2
        have hrun := tupleGo_allok ts HM xs 0
          (fun j hj => by simpa using disTuple_nth ts xs htup j hj) xs
        have hnoexc : ¬ (ts.length < xs.length) := by omega
        simp only [dvalidate, hrun, if_neg hnoexc]
      | .vNull | .vUndefinedV | .vStr _ | .vNum _ | .vBool _ | .vObj _ | .vDate _ | .vFunc _ _ =>
        exact Bool.noConfusion hdis
    | .strictT ps =>
      have hps : sizeOf ps < n := by rw [Desc.strictT.sizeOf_spec] at hd; omega
      have HM : ∀ k d0, Props.Mem k d0 ps → IsOk d0 := fun k d0 hm =>
        ih d0 (lt_trans (propsMem_size hm) hps) (noCustomProps_mem hnc hm)
      have hloose : (dictIs v && disProps ps v) = true := ((Bool.and_eq_true _ _).mp hdis).1
      have hown : (ownPropNames v).all (fun k => hasPropKey ps k) = true :=
        ((Bool.and_eq_true _ _).mp hdis).2
      have hdict : dictIs v = true := ((Bool.and_eq_true _ _).mp hloose).1
      have hp : disProps ps v = true := ((Bool.and_eq_true _ _).mp hloose).2
      have hex : strictExtras ps v (ownPropNames v) = .nil :=
        (strictExtras_nil_iff ps v (ownPropNames v)).mpr hown
      simp only [dvalidate, hdict, if_true, typeGo_allok ps HM v hp v, hex]
    | .taggedU tag ts =>
      have hts : sizeOf ts < n := by rw [Desc.taggedU.sizeOf_spec] at hd; omega
      have HM : ∀ t, DescList.Mem t ts → IsOk t := fun t hm =>
        ih t (lt_trans (dlMem_size hm) hts) (noCustomList_mem hnc hm)
      have hdict : dictIs v = true := ((Bool.and_eq_true _ _).mp hdis).1
      have hmatch := ((Bool.and_eq_true _ _).mp hdis).2
      match hpv : getProp v tag with
      | .vStr s =>
        rw [hpv] at hmatch
        match hidx : tagLastIndex tag ts s with
        | some i =>
          simp only [hidx] at hmatch
          have hcon := tagKeys_contains_of_lastIndex hidx
          simp only [dvalidate, hdict, if_true, hpv, hcon, hidx, Option.getD_some]
          exact dispatchNth_dis i ts HM v hmatch c
        | none =>
          simp only [hidx] at hmatch
          exact Bool.noConfusion hmatch
      | .vNull | .vUndefinedV | .vNum _ | .vBool _ | .vArr _ | .vObj _ | .vDate _ | .vFunc _ _ =>
        rw [hpv] at hmatch
        exact Bool.noConfusion hmatch
    | .custom nm cis cval cenc cid =>
      exact Bool.noConfusion hnc


theorem encId_aux :
    ∀ n : Nat,
      (∀ d : Desc, sizeOf d < n → noCustom d = true → noNever d = true → encId d = true)
      ∧ (∀ ps : Props, sizeOf ps < n → noCustomProps ps = true → noNeverProps ps = true →
          encIdProps ps = true)
      ∧ (∀ ts : DescList, sizeOf ts < n → noCustomList ts = true → noNeverList ts = true →
          encIdList ts = true) := by
  intro n
  induction n with
  | zero =>
    exact ⟨fun d h => absurd h (by omega), fun ps h => absurd h (by omega),
      fun ts h => absurd h (by omega)⟩
  | succ n ih =>
    refine ⟨?_, ?_, ?_⟩
    · intro d hd hnc hnn
      match d with
      | .nullT | .undefT | .anyT | .stringT | .numberT | .booleanT | .arrAnyT
      | .dictAnyT | .objectT | .funcT | .literalT _ | .keyofT _ => rfl
      | .neverT => exact Bool.noConfusion hnn
      | .custom nm cis cval cenc cid => exact Bool.noConfusion hnc
      | .refineT b p nm =>
        have : sizeOf b < n := by rw [Desc.refineT.sizeOf_spec] at hd; omega
        exact ih.1 b this hnc hnn
      | .arrayT e =>
        have : sizeOf e < n := by rw [Desc.arrayT.sizeOf_spec] at hd; omega
        exact ih.1 e this hnc hnn
      | .readonlyT t =>
        have : sizeOf t < n := by rw [Desc.readonlyT.sizeOf_spec] at hd; omega
        exact ih.1 t this hnc hnn
      | .roArrayT e =>
        have : sizeOf e < n := by rw [Desc.roArrayT.sizeOf_spec] at hd; omega
        exact ih.1 e this hnc hnn
      | .typeT ps =>
        have : sizeOf ps < n := by rw [Desc.typeT.sizeOf_spec] at hd; omega
        exact ih.2.1 ps this hnc hnn
      | .optionalT ps =>
        have : sizeOf ps < n := by rw [Desc.optionalT.sizeOf_spec] at hd; omega
        exact ih.2.1 ps this hnc hnn
      | .strictT ps =>
        have : sizeOf ps < n := by rw [Desc.strictT.sizeOf_spec] at hd; omega
        exact ih.2.1 ps this hnc hnn
      | .dictT dom cod =>
        have h1 : sizeOf dom < n := by rw [Desc.dictT.sizeOf_spec] at hd; omega
        have h2 : sizeOf cod < n := by rw [Desc.dictT.sizeOf_spec] at hd; omega
        have e1 := ih.1 dom h1 ((Bool.and_eq_true _ _).mp hnc).1 ((Bool.and_eq_true _ _).mp hnn).1
        have e2 := ih.1 cod h2 ((Bool.and_eq_true _ _).mp hnc).2 ((Bool.and_eq_true _ _).mp hnn).2
        show (encId dom && encId cod) = true
        rw [e1, e2]
        rfl
      | .unionT ts =>
        have : sizeOf ts < n := by rw [Desc.unionT.sizeOf_spec] at hd; omega
        exact ih.2.2 ts this hnc hnn
      | .interT ts =>
        have : sizeOf ts < n := by rw [Desc.interT.sizeOf_spec] at hd; omega
        exact ih.2.2 ts this hnc hnn
      | .tupleT ts =>
        have : sizeOf ts < n := by rw [Desc.tupleT.sizeOf_spec] at hd; omega
        exact ih.2.2 ts this hnc hnn
      | .taggedU tag ts =>
        have : sizeOf ts < n := by rw [Desc.taggedU.sizeOf_spec] at hd; omega
        exact ih.2.2 ts this hnc hnn
    · intro ps hps hnc hnn
      match ps with
      | .nil => rfl
      | .cons k d tl =>
        have h1 : sizeOf d < n := by rw [Props.cons.sizeOf_spec] at hps; omega
        have h2 : sizeOf tl < n := by rw [Props.cons.sizeOf_spec] at hps; omega
        have e1 := ih.1 d h1 ((Bool.and_eq_true _ _).mp hnc).1 ((Bool.and_eq_true _ _).mp hnn).1
        have e2 := ih.2.1 tl h2 ((Bool.and_eq_true _ _).mp hnc).2 ((Bool.and_eq_true _ _).mp hnn).2
        show (encId d && encIdProps tl) = true
        rw [e1, e2]
        rfl
    · intro ts hts hnc hnn
      match ts with
      | .nil => rfl
      | .cons d tl =>
        have h1 : sizeOf d < n := by rw [DescList.cons.sizeOf_spec] at hts; omega
        have h2 : sizeOf tl < n := by rw [DescList.cons.sizeOf_spec] at hts; omega
        have e1 := ih.1 d h1 ((Bool.and_eq_true _ _).mp hnc).1 ((Bool.and_eq_true _ _).mp hnn).1
        have e2 := ih.2.2 tl h2 ((Bool.and_eq_true _ _).mp hnc).2 ((Bool.and_eq_true _ _).mp hnn).2
        show (encId d && encIdList tl) = true
        rw [e1, e2]
        rfl

/-- Without `custom` leaves and without `never`, every descriptor's encode
    is the identity (all the `=== identity` fast paths fire). -/
theorem dencode_id :
    ∀ n : Nat, ∀ d : Desc, sizeOf d < n → noCustom d = true → noNever d = true →
      ∀ v : Value, dencode d v = some v := by
  intro n
  induction n with
  | zero => intro d h; exact absurd h (by omega)
  | succ n ih =>
    intro d hd hnc hnn v
    match d with
    | .nullT | .undefT | .anyT | .stringT | .numberT | .booleanT | .arrAnyT
    | .dictAnyT | .objectT | .funcT | .literalT _ | .keyofT _ => rfl
    | .neverT => exact Bool.noConfusion hnn
    | .custom nm cis cval cenc cid => exact Bool.noConfusion hnc
    | .refineT b p nm =>
      have : sizeOf b < n := by rw [Desc.refineT.sizeOf_spec] at hd; omega
      exact ih b this hnc hnn v
    | .arrayT e =>
      have he : encId e = true :=
        (encId_aux (sizeOf e + 1)).1 e (by omega) hnc hnn
      simp only [dencode, he, if_true]
    | .roArrayT e =>
      have he : encId e = true :=
        (encId_aux (sizeOf e + 1)).1 e (by omega) hnc hnn
      simp only [dencode, he, if_true]
    | .readonlyT t =>
      have he : encId t = true :=
        (encId_aux (sizeOf t + 1)).1 t (by omega) hnc hnn
      simp only [dencode, he, if_true]
    | .typeT ps =>
      have he : encIdProps ps = true := (encId_aux (sizeOf ps + 1)).2.1 ps (by omega) hnc hnn
      simp only [dencode, he, if_true]
    | .optionalT ps =>
      have he : encIdProps ps = true := (encId_aux (sizeOf ps + 1)).2.1 ps (by omega) hnc hnn
      simp only [dencode, he, if_true]
    | .strictT ps =>
      have he : encIdProps ps = true := (encId_aux (sizeOf ps + 1)).2.1 ps (by omega) hnc hnn
      simp only [dencode, he, if_true]
    | .dictT dom cod =>
      have h1 : encId dom = true :=
        (encId_aux (sizeOf dom + 1)).1 dom (by omega)
          ((Bool.and_eq_true _ _).mp hnc).1 ((Bool.and_eq_true _ _).mp hnn).1
      have h2 : encId cod = true :=
        (encId_aux (sizeOf cod + 1)).1 cod (by omega)
          ((Bool.and_eq_true _ _).mp hnc).2 ((Bool.and_eq_true _ _).mp hnn).2
      simp only [dencode, h1, h2, Bool.and_self, if_true]
    | .unionT ts =>
      have he : encIdList ts = true := (encId_aux (sizeOf ts + 1)).2.2 ts (by omega) hnc hnn
      simp only [dencode, he, if_true]
    | .interT ts =>
      have he : encIdList ts = true := (encId_aux (sizeOf ts + 1)).2.2 ts (by omega) hnc hnn
      simp only [dencode, he, if_true]
    | .tupleT ts =>
      have he : encIdList ts = true := (encId_aux (sizeOf ts + 1)).2.2 ts (by omega) hnc hnn
      simp only [dencode, he, if_true]
    | .taggedU tag ts =>
      have he : encIdList ts = true := (encId_aux (sizeOf ts + 1)).2.2 ts (by omega) hnc hnn
      simp only [dencode, he, if_true]

/-- Counterexample to C1 as stated, in two independent halves.

    Half 1 (`never`): the API-constructable descriptor
    `partial(\x7ba: never\x7d)` accepts `\x7bb: 2\x7d` (`is` is true: the
    field `a` reads as `undefined`, which the `union([never, undefined])`
    wrapper accepts), but `never.encode` is not `identity`, so partial's
    non-identity encoder — which only copies declared, defined props —
    drops the key `b`: encode produces `\x7b\x7d`, decode of `\x7b\x7d`
    succeeds with `\x7b\x7d`, and `\x7b\x7d` is observably different from
    the original value.

    Half 2 (`recursion`, no `never` anywhere): the descriptor
    `partial(\x7ba: recursion('R', _ => string)\x7d)` accepts the same
    `\x7bb: 2\x7d`, but the recursive node's encode is the fresh closure
    `a => runDefinition().encode(a)`, never reference-equal to
    `identity`, so `useIdentity(props)` is false and partial's
    key-dropping encoder again yields `\x7b\x7d`: the round trip loses
    the key `b` even though the descriptor is `never`-free. -/
theorem C1_counterexample :
    (dis (.optionalT (.cons "a" .neverT .nil)) (.vObj (.cons "b" (.vNum 2) .nil)) = true
     ∧ dencode (.optionalT (.cons "a" .neverT .nil)) (.vObj (.cons "b" (.vNum 2) .nil))
         = some (.vObj .nil)
     ∧ ddecode (.optionalT (.cons "a" .neverT .nil)) (.vObj .nil) = .ok (.vObj .nil))
    ∧ (noNever (.optionalT (.cons "a" recString .nil)) = true
     ∧ dis (.optionalT (.cons "a" recString .nil)) (.vObj (.cons "b" (.vNum 2) .nil)) = true
     ∧ dencode (.optionalT (.cons "a" recString .nil)) (.vObj (.cons "b" (.vNum 2) .nil))
         = some (.vObj .nil)
     ∧ ddecode (.optionalT (.cons "a" recString .nil)) (.vObj .nil) = .ok (.vObj .nil))
    ∧ (Value.vObj .nil) ≠ (.vObj (.cons "b" (.vNum 2) .nil)) := by
  refine ⟨⟨by decide, by decide, by decide⟩,
    ⟨by decide, by decide, by decide, by decide⟩, by decide⟩

/-- Claim C1, amended: for every descriptor built from the combinator API
    without custom `new Type(...)` leaves, in which neither the `never`
    primitive nor the `recursion` combinator occurs (`noCustom` excludes
    both opaque node kinds, `noNever` the `never` leaf — each of the two
    exclusions is forced by a half of `C1_counterexample`, since both
    `never.encode` and a recursive type's closure encode break the
    `encode === identity` fast paths that the container encoders test),
    and every value `v` accepted by `is`, encode is the identity on `v`
    and decode succeeds returning `v` itself, so `decode(encode(v))`
    succeeds with a value observationally equal (here: structurally
    equal) to `v`. -/
theorem C1_round_trip (d : Desc) (v : Value) (hnc : noCustom d = true)
    (hnn : noNever d = true) (hv : dis d v = true) :
    dencode d v = some v ∧ ddecode d v = .ok v :=
  ⟨dencode_id (sizeOf d + 1) d (by omega) hnc hnn v,
   isOk_aux (sizeOf d + 1) d (by omega) hnc v hv "" (dname d)⟩

/-- Witness for C1 (amended), on
    `strict(\x7bfoo: string, bar: union([string, undefined])\x7d)`. -/
theorem C1_round_trip_witness :
    dencode (.strictT (.cons "foo" .stringT (.cons "bar" (.unionT (.cons .stringT (.cons .undefT .nil))) .nil)))
        (.vObj (.cons "foo" (.vStr "x") (.cons "bar" (.vStr "y") .nil)))
      = some (.vObj (.cons "foo" (.vStr "x") (.cons "bar" (.vStr "y") .nil)))
    ∧ ddecode (.strictT (.cons "foo" .stringT (.cons "bar" (.unionT (.cons .stringT (.cons .undefT .nil))) .nil)))
        (.vObj (.cons "foo" (.vStr "x") (.cons "bar" (.vStr "y") .nil)))
      = .ok (.vObj (.cons "foo" (.vStr "x") (.cons "bar" (.vStr "y") .nil))) :=
  C1_round_trip _ _ (by decide) (by decide) (by decide)

end IoTs
